import Mathlib

/-!
Verification of the Frame TV artwork synchronization service
(sync_artwork.py).

The Python dict `file_mapping` (filename → content id) is modelled as an
insertion-ordered association list: dict assignment updates the value of an
existing key in place and appends a fresh key at the end, and the dict
comprehension in `get_tv_images` iterates the pairs in order, so later pairs
override earlier ones.  Key uniqueness (a dict invariant) is carried as a
hypothesis where a proof needs it.  Device state (the set of content ids in
the uploaded-photos category) and the outcome of each network call are
explicit parameters; Python floats are read as real numbers.
-/

namespace FrameTV

/-- A Python dict from filenames to content ids: insertion-ordered pairs. -/
abbrev Dict := List (String × String)

/-- Python `d.get(k)` / `d[k]`: the value stored at a key. -/
def dlookup : Dict → String → Option String
  | [], _ => none
  | (k, v) :: rest, k' => if k' = k then some v else dlookup rest k'

/-- Python `d[k] = v`: update the value in place when the key exists,
append the pair at the end otherwise. -/
def dictInsert : Dict → String → String → Dict
  | [], k, v => [(k, v)]
  | (k', v') :: rest, k, v =>
      if k' = k then (k, v) :: rest else (k', v') :: dictInsert rest k v

/-- Python `d.values()`. -/
def dictValues (m : Dict) : List String := m.map Prod.snd

/-- Python `d.keys()`. -/
def dictKeys (m : Dict) : List String := m.map Prod.fst

/-- The reverse lookup dict of `get_tv_images`, the comprehension
`reverse_mapping = ...` built by iterating the pairs of the mapping and
assigning value-to-key, later pairs overriding earlier ones. -/
def reverseMapping (m : Dict) : Dict :=
  m.foldl (fun acc kv => dictInsert acc kv.2 kv.1) []

/-- Looking a content id up in the reverse mapping. -/
def rlook (m : Dict) (c : String) : Option String :=
  dlookup (reverseMapping m) c

/-- Model of `TVArtworkSync.get_tv_images`: fetch the device's uploaded-photo
inventory (`none` when the request raised) and partition the content ids by
membership in the reverse mapping; the exception handler returns two empty
sets. -/
def get_tv_images (fetch : Option (Finset String)) (m : Dict) :
    Finset String × Finset String :=
  match fetch with
  | none => (∅, ∅)
  | some tv_content_ids =>
      ((tv_content_ids.filter (fun c => (rlook m c).isSome)).image
          (fun c => (rlook m c).getD ("")),
        tv_content_ids.filter (fun c => (rlook m c).isNone))

/-- Lexicographic comparison of char lists, evaluable by the kernel. -/
def charsLe : List Char → List Char → Bool
  | [], _ => true
  | _ :: _, [] => false
  | a :: as, b :: bs => if a < b then true else if b < a then false else charsLe as bs

/-- A total order on strings, used only to enumerate finite sets of strings
deterministically. -/
def strLe (a b : String) : Prop := charsLe a.data b.data = true

instance : DecidableRel strLe := fun a b => by
  unfold strLe
  infer_instance

theorem charsLe_total : ∀ as bs, charsLe as bs = true ∨ charsLe bs as = true
  | [], _ => Or.inl rfl
  | _ :: _, [] => Or.inr rfl
  | a :: as, b :: bs => by
      rcases lt_trichotomy a b with h | h | h
      · left
        simp [charsLe, h]
      · subst h
        have := charsLe_total as bs
        simpa [charsLe, lt_irrefl] using this
      · right
        simp [charsLe, h]

theorem charsLe_trans : ∀ as bs cs, charsLe as bs = true → charsLe bs cs = true →
    charsLe as cs = true
  | [], _, _, _, _ => rfl
  | _ :: _, [], _, h1, _ => by simp [charsLe] at h1
  | _ :: _, _ :: _, [], _, h2 => by simp [charsLe] at h2
  | a :: as, b :: bs, c :: cs, h1, h2 => by
      rcases lt_trichotomy a b with hab | hab | hab
      · rcases lt_trichotomy b c with hbc | hbc | hbc
        · simp [charsLe, lt_trans hab hbc]
        · subst hbc
          simp [charsLe, hab]
        · rw [charsLe, if_neg (by exact fun h => absurd hbc (not_lt_of_gt h)), if_pos hbc] at h2
          exact absurd h2 (by simp)
      · subst hab
        rcases lt_trichotomy a c with hac | hac | hac
        · simp [charsLe, hac]
        · subst hac
          rw [charsLe, if_neg (lt_irrefl a), if_neg (lt_irrefl a)] at h1 h2 ⊢
          exact charsLe_trans as bs cs h1 h2
        · rw [charsLe, if_neg (by exact fun h => absurd hac (not_lt_of_gt h)), if_pos hac] at h2
          exact absurd h2 (by simp)
      · rw [charsLe, if_neg (by exact fun h => absurd hab (not_lt_of_gt h)), if_pos hab] at h1
        exact absurd h1 (by simp)

theorem charsLe_antisymm : ∀ as bs, charsLe as bs = true → charsLe bs as = true →
    as = bs
  | [], [], _, _ => rfl
  | [], _ :: _, _, h2 => by simp [charsLe] at h2
  | _ :: _, [], h1, _ => by simp [charsLe] at h1
  | a :: as, b :: bs, h1, h2 => by
      rcases lt_trichotomy a b with hab | hab | hab
      · rw [charsLe, if_neg (by exact fun h => absurd hab (not_lt_of_gt h)), if_pos hab] at h2
        exact absurd h2 (by simp)
      · subst hab
        rw [charsLe, if_neg (lt_irrefl a), if_neg (lt_irrefl a)] at h1 h2
        rw [charsLe_antisymm as bs h1 h2]
      · rw [charsLe, if_neg (by exact fun h => absurd hab (not_lt_of_gt h)), if_pos hab] at h1
        exact absurd h1 (by simp)

instance : IsTotal String strLe := ⟨fun a b => charsLe_total a.data b.data⟩

instance : IsTrans String strLe :=
  ⟨fun a b c h1 h2 => charsLe_trans a.data b.data c.data h1 h2⟩

instance : IsAntisymm String strLe :=
  ⟨fun a b h1 h2 => String.ext (charsLe_antisymm a.data b.data h1 h2)⟩

/-- Iterating a Python set: an enumeration of its elements without
repetition. -/
def setList (s : Finset String) : List String :=
  Quot.liftOn s.1 (List.insertionSort strLe) (fun l₁ l₂ h => by
    refine List.eq_of_perm_of_sorted ?_ (List.sorted_insertionSort strLe l₁)
      (List.sorted_insertionSort strLe l₂)
    exact (List.perm_insertionSort strLe l₁).trans
      (h.trans (List.perm_insertionSort strLe l₂).symm))

/-- The mapping update after a successful batch delete (sync lines 501-503):
for each filename of `to_delete`,
`if filename in self.file_mapping: del self.file_mapping[filename]`. -/
def removeFiles (m : Dict) (dels : List String) : Dict :=
  dels.foldl
    (fun acc f => if (dlookup acc f).isSome then acc.filter (fun p => p.1 != f) else acc)
    m

/-- The slideshow settings sync preserves or synthesizes: the auto-advance
value and whether the type is `shuffleslideshow`. -/
structure SlideshowSettings where
  value : String
  shuffleType : Bool

/-- Configuration and collaborator outcomes of one sync pass: the dry-run
switch, the unknown-removal policy, the slideshow settings sources, the
brightness value computed for this cycle, the content id the device answers
each upload with (`none` = the upload failed after all attempts), whether
each batch delete succeeds, and the random choice used in shuffle mode. -/
structure SyncConfig where
  dryRun : Bool
  removeUnknown : Bool
  slideshowOverride : Bool
  slideshowEnabled : Bool
  slideshowInterval : String
  slideshowShuffle : Bool
  tvSlideshow : Option SlideshowSettings
  brightness : Option Int
  uploadResult : String → Option String
  deleteOk : Bool
  deleteUnknownOk : Bool
  choose : List String → String

/-- The per-device state a sync pass acts on: the persisted filename →
content-id mapping and the device's actual uploaded-photo inventory. -/
structure SyncState where
  mapping : Dict
  inventory : Finset String

/-- Outcome of the upload loop. -/
structure UploadOut where
  mapping : Dict
  inventory : Finset String
  calls : List String
  saves : Nat

/-- Model of `TVArtworkSync.upload_image` for one file: in dry-run mode report
success without any device call; otherwise issue the upload and, when the
device returns a content id, record filename → content id in the mapping and
save it at once. -/
def upload_image (cfg : SyncConfig) (m : Dict) (inv : Finset String)
    (f : String) : UploadOut :=
  if cfg.dryRun then ⟨m, inv, [], 0⟩
  else
    match cfg.uploadResult f with
    | some cid => ⟨dictInsert m f cid, insert cid inv, [f], 1⟩
    | none => ⟨m, inv, [f], 0⟩

/-- The upload loop of sync (lines 482-486). -/
def uploadStep (cfg : SyncConfig) (m : Dict) (inv : Finset String) :
    List String → UploadOut
  | [] => ⟨m, inv, [], 0⟩
  | f :: rest =>
      let r := upload_image cfg m inv f
      let s := uploadStep cfg r.mapping r.inventory rest
      ⟨s.mapping, s.inventory, r.calls ++ s.calls, r.saves + s.saves⟩

/-- Outcome of a deletion block. -/
structure DeleteOut where
  mapping : Dict
  inventory : Finset String
  requests : List (List String)
  saves : Nat

/-- The tracked-deletion block of sync (lines 489-507): look each filename
of `to_delete` up in the mapping, drop the misses, and when ids remain issue
one `delete_list` call; on success remove the filenames from the mapping and
save once; the exception path leaves the mapping as it was. -/
def deleteTrackedStep (cfg : SyncConfig) (m : Dict) (inv : Finset String)
    (to_delete : Finset String) : DeleteOut :=
  if to_delete ≠ ∅ then
    let content_ids := (setList to_delete).filterMap (dlookup m)
    if content_ids ≠ [] then
      if cfg.dryRun then ⟨m, inv, [], 0⟩
      else if cfg.deleteOk then
        ⟨removeFiles m (setList to_delete), inv \ content_ids.toFinset, [content_ids], 1⟩
      else ⟨m, inv, [content_ids], 0⟩
    else ⟨m, inv, [], 0⟩
  else ⟨m, inv, [], 0⟩

/-- Outcome of the unknown-deletion block. -/
structure UnknownOut where
  inventory : Finset String
  requests : List (List String)

/-- The unknown-deletion block of sync (lines 510-519): when the policy is
enabled and unknown content exists, issue one batch delete of the unknown
content ids; the mapping is untouched either way. -/
def deleteUnknownStep (cfg : SyncConfig) (inv : Finset String)
    (unknown : Finset String) : UnknownOut :=
  if cfg.removeUnknown = true ∧ unknown ≠ ∅ then
    if cfg.dryRun then ⟨inv, []⟩
    else if cfg.deleteUnknownOk then ⟨inv \ unknown, [setList unknown]⟩
    else ⟨inv, [setList unknown]⟩
  else ⟨inv, []⟩

/-- Everything one sync pass computed and did: the reconciliation decision
sets, the final mapping and device inventory, the content id the select
block computed (assigned in both modes at lines 528 and 534, before the
dry-run check decides whether the select call is issued), and the mutating
device calls issued (uploads, batched deletes, image selections, slideshow
restarts, brightness settings) together with the mapping saves. -/
structure SyncResult where
  toUpload : Finset String
  toDelete : Finset String
  unknownImages : Finset String
  mapping : Dict
  inventory : Finset String
  uploadCalls : List String
  deleteRequests : List (List String)
  selectDecision : Option String
  selectCalls : List String
  slideshowCalls : Nat
  brightnessCalls : List Int
  saveCalls : Nat

/-- Model of `TVArtworkSync.sync` (lines 425-558): fetch and partition the device
inventory, diff it against the local set, resolve the slideshow settings
when images change, upload, batch-delete tracked removals, batch-delete
unknown content under the policy, select an image and restart the slideshow
after changes, and apply the brightness computed for this cycle. -/
def syncPass (cfg : SyncConfig) (local_images : Finset String)
    (fetch : Option (Finset String)) (st : SyncState) : SyncResult :=
  let ti := get_tv_images fetch st.mapping
  let tv_images := ti.1
  let unknown_images := ti.2
  let to_upload := local_images \ tv_images
  let to_delete := tv_images \ local_images
  let slideshow_settings : Option SlideshowSettings :=
    if (to_upload ≠ ∅ ∨ to_delete ≠ ∅ ∨
          (cfg.removeUnknown = true ∧ unknown_images ≠ ∅)) ∧ local_images ≠ ∅ then
      if cfg.slideshowOverride then
        if cfg.slideshowEnabled then
          some ⟨cfg.slideshowInterval, cfg.slideshowShuffle⟩
        else none
      else cfg.tvSlideshow
    else none
  let up := uploadStep cfg st.mapping st.inventory (setList to_upload)
  let del := deleteTrackedStep cfg up.mapping up.inventory to_delete
  let unk := deleteUnknownStep cfg del.inventory unknown_images
  let selection : Option String × List String × Nat :=
    if local_images ≠ ∅ ∧ (to_upload ≠ ∅ ∨ to_delete ≠ ∅ ∨
          (cfg.removeUnknown = true ∧ unknown_images ≠ ∅)) then
      if del.mapping ≠ [] then
        let content_id :=
          if (slideshow_settings.map SlideshowSettings.shuffleType).getD false then
            cfg.choose (dictValues del.mapping)
          else (dictValues del.mapping).headD ("")
        (some content_id, (if cfg.dryRun then [] else [content_id]),
          if slideshow_settings.isSome then (if cfg.dryRun then 0 else 1) else 0)
      else (none, [], 0)
    else (none, [], 0)
  let brightnessCalls : List Int :=
    match cfg.brightness with
    | some b => if cfg.dryRun then [] else [b]
    | none => []
  { toUpload := to_upload
    toDelete := to_delete
    unknownImages := unknown_images
    mapping := del.mapping
    inventory := unk.inventory
    uploadCalls := up.calls
    deleteRequests := del.requests ++ unk.requests
    selectDecision := selection.1
    selectCalls := selection.2.1
    slideshowCalls := selection.2.2
    brightnessCalls := brightnessCalls
    saveCalls := up.saves + del.saves }

/-- Python `int()` on a float value: truncation toward zero. -/
noncomputable def pyInt (x : ℝ) : ℤ := if 0 ≤ x then ⌊x⌋ else ⌈x⌉

/-- Model of `brightness_from_elevation`, with the configured `BRIGHTNESS_MIN` and
`BRIGHTNESS_MAX` passed explicitly. -/
noncomputable def brightness_from_elevation (elevation : ℝ)
    (min_b max_b : ℤ) : ℤ :=
  if elevation ≤ 0 then min_b
  else
    let elevation_rad := elevation * (Real.pi / 180)
    let air_mass := 1.0 /
      (Real.sin elevation_rad + 0.50572 * (elevation + 6.07995) ^ (-1.6364 : ℝ))
    let relative_irradiance := (0.7 : ℝ) ^ (air_mass ^ (0.678 : ℝ))
    min_b + pyInt (((max_b - min_b : ℤ) : ℝ) * relative_irradiance)

/-- Model of `brightness_from_elevation` with each operation Python cannot complete
on real inputs flagged as `none`: a nonpositive base under the fractional
power `(elevation + 6.07995) ** (-1.6364)`, a zero air-mass denominator
(ZeroDivisionError), and a negative air mass under `** 0.678`, whose complex
result makes the final `int()` raise a TypeError. -/
noncomputable def brightness_from_elevation_checked (elevation : ℝ)
    (min_b max_b : ℤ) : Option ℤ :=
  if elevation ≤ 0 then some min_b
  else if elevation + 6.07995 ≤ 0 then none
  else
    let denom := Real.sin (elevation * (Real.pi / 180)) +
      0.50572 * (elevation + 6.07995) ^ (-1.6364 : ℝ)
    if denom = 0 then none
    else if 1.0 / denom < 0 then none
    else
      some (min_b +
        pyInt (((max_b - min_b : ℤ) : ℝ) * (0.7 : ℝ) ^ ((1.0 / denom) ^ (0.678 : ℝ))))

/-- Keys of the dict are pairwise distinct: the Python dict invariant. -/
def keysNodup (m : Dict) : Prop := (dictKeys m).Nodup

/-- The accumulated mapping of an upload loop in which every upload of the
files listed succeeds with the content id `assign` gives it. -/
def uploadAll (assign : String → String) : Dict → List String → Dict
  | m, [] => m
  | m, f :: rest => uploadAll assign (dictInsert m f (assign f)) rest


theorem dlookup_dictInsert (m : Dict) (k v x : String) :
    dlookup (dictInsert m k v) x = if x = k then some v else dlookup m x := by
  induction m with
  | nil => simp [dictInsert, dlookup]
  | cons p rest ih =>
      obtain ⟨k', v'⟩ := p
      by_cases hk : k' = k <;> by_cases hx : x = k' <;>
        simp_all [dictInsert, dlookup]

theorem reverseMapping_concat (m : Dict) (k v : String) :
    reverseMapping (m ++ [(k, v)]) = dictInsert (reverseMapping m) v k := by
  simp [reverseMapping, List.foldl_append]

theorem rlook_nil (c : String) : rlook [] c = none := rfl

theorem rlook_concat (m : Dict) (k v c : String) :
    rlook (m ++ [(k, v)]) c = if c = v then some k else rlook m c := by
  simp [rlook, reverseMapping_concat, dlookup_dictInsert]

/-- The reverse lookup of a content id is the key of the last pair carrying
that id as value. -/
theorem rlook_eq_getLast (m : Dict) (c : String) :
    rlook m c = ((m.filter (fun p => p.2 == c)).getLast?).map Prod.fst := by
  induction m using List.reverseRecOn with
  | nil => rfl
  | append_singleton l p ih =>
      obtain ⟨k, v⟩ := p
      rw [rlook_concat, List.filter_append]
      by_cases hv : c = v
      · subst hv
        simp [List.getLast?_concat]
      · have hvc : ((k, v).2 == c) = false := by
          simp only [beq_eq_false_iff_ne]
          exact fun h => hv h.symm
        simp [List.filter_cons, hvc, if_neg hv, ih]

theorem mem_of_rlook {m : Dict} {c f : String} (h : rlook m c = some f) :
    (f, c) ∈ m := by
  rw [rlook_eq_getLast] at h
  rw [Option.map_eq_some'] at h
  obtain ⟨q, hq, hq1⟩ := h
  have hmem := List.mem_of_getLast?_eq_some hq
  rw [List.mem_filter] at hmem
  obtain ⟨hqm, hq2⟩ := hmem
  have : q.2 = c := by simpa using hq2
  have hqe : q = (f, c) := by
    cases q; simp_all
  rwa [hqe] at hqm

theorem rlook_isSome {m : Dict} {c f : String} (h : (f, c) ∈ m) :
    (rlook m c).isSome := by
  rw [rlook_eq_getLast]
  have : (f, c) ∈ m.filter (fun p => p.2 == c) := by
    rw [List.mem_filter]; exact ⟨h, by simp⟩
  have hne : m.filter (fun p => p.2 == c) ≠ [] := by
    intro he; rw [he] at this; simp at this
  rw [Option.isSome_map']
  exact List.getLast?_isSome.2 hne

theorem rlook_isSome_iff (m : Dict) (c : String) :
    (rlook m c).isSome ↔ c ∈ dictValues m := by
  constructor
  · intro h
    obtain ⟨f, hf⟩ := Option.isSome_iff_exists.1 h
    exact List.mem_map.2 ⟨(f, c), mem_of_rlook hf, rfl⟩
  · intro h
    obtain ⟨⟨f, c'⟩, hm, hc⟩ := List.mem_map.1 h
    cases hc
    exact rlook_isSome hm
theorem rlook_eq_of_unique {m : Dict} {c f : String} (hm : (f, c) ∈ m)
    (hu : ∀ g, (g, c) ∈ m → g = f) : rlook m c = some f := by
  have hs := rlook_isSome hm
  obtain ⟨g, hg⟩ := Option.isSome_iff_exists.1 hs
  have := hu g (mem_of_rlook hg)
  rw [hg, this]

/-- In a list without repetition, a sublist containing the last element has
the same last element. -/
theorem getLast_of_sublist {l' l : List (String × String)} {a : String × String}
    (hsub : l'.Sublist l) (hlast : l.getLast? = some a) (hmem : a ∈ l')
    (hnd : l.Nodup) : l'.getLast? = some a := by
  have hne : l ≠ [] := by
    intro he; rw [he] at hlast; simp at hlast
  obtain ⟨l₁, hl₁⟩ : ∃ l₁, l = l₁ ++ [a] := by
    refine ⟨l.dropLast, ?_⟩
    exact (List.dropLast_append_getLast? a hlast).symm
  subst hl₁
  have hnmem : a ∉ l₁ := by
    rw [List.nodup_append] at hnd
    exact fun h => hnd.2.2 h (List.mem_singleton_self a)
  obtain ⟨r₁, r₂, hr, hr₁, hr₂⟩ := List.sublist_append_iff.1 hsub
  subst hr
  have har₂ : a ∈ r₂ := by
    rcases List.mem_append.1 hmem with h | h
    · exact absurd (hr₁.mem h) hnmem
    · exact h
  have hr2 : r₂ = [a] := by
    rcases List.sublist_singleton.1 hr₂ with h | h
    · rw [h] at har₂; simp at har₂
    · exact h
  rw [hr2, List.getLast?_concat]
theorem nodup_of_keysNodup {m : Dict} (h : keysNodup m) : m.Nodup :=
  List.Nodup.of_map Prod.fst h

/-- Reverse lookups survive a transformation of the mapping that keeps the
pair and removes or never adds pairs carrying the same content id after it. -/
theorem rlook_stable {m m₂ : Dict} {c f : String} (hnd : keysNodup m)
    (hr : rlook m c = some f) (hmem : (f, c) ∈ m₂)
    (hsub : (m₂.filter (fun p => p.2 == c)).Sublist
      (m.filter (fun p => p.2 == c))) :
    rlook m₂ c = some f := by
  rw [rlook_eq_getLast] at hr ⊢
  rw [Option.map_eq_some'] at hr
  obtain ⟨q, hq, hq1⟩ := hr
  have hqf := List.mem_of_getLast?_eq_some hq
  rw [List.mem_filter] at hqf
  have hq2 : q.2 = c := by simpa using hqf.2
  have hqe : q = (f, c) := by
    obtain ⟨a, b⟩ := q; simp_all
  subst hqe
  have hmem' : (f, c) ∈ m₂.filter (fun p => p.2 == c) := by
    rw [List.mem_filter]; exact ⟨hmem, by simp⟩
  have hlast := getLast_of_sublist hsub hq hmem'
    ((nodup_of_keysNodup hnd).filter _)
  rw [hlast]
  rfl

theorem mem_dictKeys {m : Dict} {g c : String} (h : (g, c) ∈ m) :
    g ∈ dictKeys m :=
  List.mem_map_of_mem Prod.fst h

theorem mem_dictInsert_of_ne {m : Dict} {g c k v : String}
    (h : (g, c) ∈ m) (hne : g ≠ k) : (g, c) ∈ dictInsert m k v := by
  induction m with
  | nil => simp at h
  | cons p rest ih =>
      obtain ⟨k', v'⟩ := p
      by_cases hk : k' = k
      · subst hk
        simp only [dictInsert, if_pos rfl]
        rcases List.mem_cons.1 h with h | h
        · exact absurd (congrArg Prod.fst h) (by simpa using hne)
        · exact List.mem_cons_of_mem _ h
      · simp only [dictInsert, if_neg hk]
        rcases List.mem_cons.1 h with h | h
        · exact h ▸ List.mem_cons_self _ _
        · exact List.mem_cons_of_mem _ (ih h)

theorem mem_dictInsert_elim {m : Dict} {k v g c : String} (hnd : keysNodup m)
    (h : (g, c) ∈ dictInsert m k v) :
    ((g, c) ∈ m ∧ g ≠ k) ∨ (g = k ∧ c = v) := by
  induction m with
  | nil =>
      simp [dictInsert] at h
      exact Or.inr ⟨h.1, h.2⟩
  | cons p rest ih =>
      obtain ⟨k', v'⟩ := p
      have hndr : keysNodup rest := (List.nodup_cons.1 hnd).2
      have hknr : k' ∉ dictKeys rest := by
        have := (List.nodup_cons.1 hnd).1
        simpa [dictKeys] using this
      by_cases hk : k' = k
      · subst hk
        simp only [dictInsert, if_pos rfl] at h
        rcases List.mem_cons.1 h with h | h
        · obtain ⟨h1, h2⟩ := Prod.mk.injEq .. ▸ h
          exact Or.inr ⟨h1, h2⟩
        · left
          refine ⟨List.mem_cons_of_mem _ h, ?_⟩
          intro hg
          exact hknr (hg ▸ mem_dictKeys h)
      · simp only [dictInsert, if_neg hk] at h
        rcases List.mem_cons.1 h with h | h
        · obtain ⟨h1, h2⟩ := Prod.mk.injEq .. ▸ h
          subst h1
          exact Or.inl ⟨h ▸ List.mem_cons_self _ _, hk⟩
        · rcases ih hndr h with ⟨hm, hne⟩ | hkv
          · exact Or.inl ⟨List.mem_cons_of_mem _ hm, hne⟩
          · exact Or.inr hkv

theorem mem_dictKeys_dictInsert {m : Dict} {k v x : String}
    (h : x ∈ dictKeys (dictInsert m k v)) : x ∈ dictKeys m ∨ x = k := by
  induction m with
  | nil => simpa [dictInsert, dictKeys] using h
  | cons p rest ih =>
      obtain ⟨k', v'⟩ := p
      by_cases hk : k' = k
      · subst hk
        simp only [dictInsert, if_pos rfl, dictKeys, List.map_cons] at h ⊢
        rcases List.mem_cons.1 h with h | h
        · exact Or.inr h
        · exact Or.inl (List.mem_cons_of_mem _ h)
      · simp only [dictInsert, if_neg hk, dictKeys, List.map_cons] at h ⊢
        rcases List.mem_cons.1 h with h | h
        · exact Or.inl (h ▸ List.mem_cons_self _ _)
        · rcases ih h with h | h
          · exact Or.inl (List.mem_cons_of_mem _ h)
          · exact Or.inr h

theorem keysNodup_dictInsert {m : Dict} (k v : String) (h : keysNodup m) :
    keysNodup (dictInsert m k v) := by
  induction m with
  | nil => simp [dictInsert, keysNodup, dictKeys]
  | cons p rest ih =>
      obtain ⟨k', v'⟩ := p
      have hndr : keysNodup rest := (List.nodup_cons.1 h).2
      have hknr : k' ∉ dictKeys rest := by
        have := (List.nodup_cons.1 h).1
        simpa [dictKeys] using this
      by_cases hk : k' = k
      · subst hk
        simp only [dictInsert, if_pos rfl]
        exact List.nodup_cons.2 ⟨by simpa [dictKeys] using hknr, hndr⟩
      · simp only [dictInsert, if_neg hk]
        refine List.nodup_cons.2 ⟨?_, ih hndr⟩
        intro hmem
        rcases mem_dictKeys_dictInsert (by simpa [dictKeys] using hmem) with h | h
        · exact hknr h
        · exact hk h

theorem filter_dictInsert_sublist {m : Dict} {k v c : String} (hv : v ≠ c) :
    ((dictInsert m k v).filter (fun p => p.2 == c)).Sublist
      (m.filter (fun p => p.2 == c)) := by
  induction m with
  | nil => simp [dictInsert, List.filter_cons, hv]
  | cons p rest ih =>
      obtain ⟨k', v'⟩ := p
      by_cases hk : k' = k
      · simp only [dictInsert, if_pos hk, List.filter_cons]
        by_cases hv' : ((k', v').2 == c) = true
        · simp only [hv', if_true]
          have hvc : (((k, v).2 == c) = false) := by simp [hv]
          simp only [hvc, Bool.false_eq_true, if_false]
          exact List.sublist_cons_self _ _
        · simp only [Bool.not_eq_true] at hv'
          have hvc : (((k, v).2 == c) = false) := by simp [hv]
          simp only [hv', hvc, Bool.false_eq_true, if_false]
          exact List.Sublist.refl _
      · simp only [dictInsert, if_neg hk, List.filter_cons]
        by_cases hv' : ((k', v').2 == c) = true
        · simp only [hv', if_true]
          exact ih.cons₂ _
        · simp only [Bool.not_eq_true] at hv'
          simp only [hv', Bool.false_eq_true, if_false]
          exact ih
theorem dlookup_isSome_iff {m : Dict} {k : String} :
    (dlookup m k).isSome ↔ k ∈ dictKeys m := by
  induction m with
  | nil => simp [dlookup, dictKeys]
  | cons p rest ih =>
      obtain ⟨k', v'⟩ := p
      by_cases hk : k = k' <;> simp [dlookup, dictKeys, hk, ih]

theorem dlookup_mem {m : Dict} {k v : String} (h : dlookup m k = some v) :
    (k, v) ∈ m := by
  induction m with
  | nil => simp [dlookup] at h
  | cons p rest ih =>
      obtain ⟨k', v'⟩ := p
      by_cases hk : k = k'
      · subst hk
        simp only [dlookup, if_pos rfl] at h
        obtain rfl := Option.some.injEq .. ▸ h
        simp_all
      · simp only [dlookup, if_neg hk] at h
        exact List.mem_cons_of_mem _ (ih h)

theorem dlookup_eq_some_of_mem {m : Dict} {k v : String} (hnd : keysNodup m)
    (h : (k, v) ∈ m) : dlookup m k = some v := by
  induction m with
  | nil => simp at h
  | cons p rest ih =>
      obtain ⟨k', v'⟩ := p
      have hndr : keysNodup rest := (List.nodup_cons.1 hnd).2
      have hknr : k' ∉ dictKeys rest := by
        have := (List.nodup_cons.1 hnd).1
        simpa [dictKeys] using this
      rcases List.mem_cons.1 h with h | h
      · obtain ⟨h1, h2⟩ := Prod.mk.injEq .. ▸ h
        subst h1; subst h2
        simp [dlookup]
      · have hk : k ≠ k' := by
          intro hkk
          exact hknr (hkk ▸ mem_dictKeys h)
        simp only [dlookup, if_neg hk]
        exact ih hndr h

theorem value_unique {m : Dict} {k v v' : String} (hnd : keysNodup m)
    (h : (k, v) ∈ m) (h' : (k, v') ∈ m) : v = v' := by
  have h1 := dlookup_eq_some_of_mem hnd h
  have h2 := dlookup_eq_some_of_mem hnd h'
  rw [h1] at h2
  exact Option.some.injEq .. ▸ h2

theorem dlookup_uploadAll_not_mem {assign : String → String} {l : List String}
    {m : Dict} {f : String} (h : f ∉ l) :
    dlookup (uploadAll assign m l) f = dlookup m f := by
  induction l generalizing m with
  | nil => rfl
  | cons g rest ih =>
      have hf : f ∉ rest := fun hf => h (List.mem_cons_of_mem _ hf)
      have hg : f ≠ g := fun hg => h (hg ▸ List.mem_cons_self _ _)
      simp only [uploadAll]
      rw [ih hf, dlookup_dictInsert, if_neg hg]

theorem dlookup_uploadAll_mem {assign : String → String} {l : List String}
    {m : Dict} {f : String} (hnd : l.Nodup) (h : f ∈ l) :
    dlookup (uploadAll assign m l) f = some (assign f) := by
  induction l generalizing m with
  | nil => simp at h
  | cons g rest ih =>
      simp only [uploadAll]
      rcases List.mem_cons.1 h with h | h
      · subst h
        have : f ∉ rest := (List.nodup_cons.1 hnd).1
        rw [dlookup_uploadAll_not_mem this, dlookup_dictInsert, if_pos rfl]
      · exact ih (List.nodup_cons.1 hnd).2 h

theorem mem_uploadAll_of_not_mem {assign : String → String} {l : List String}
    {m : Dict} {g c : String} (h : (g, c) ∈ m) (hg : g ∉ l) :
    (g, c) ∈ uploadAll assign m l := by
  induction l generalizing m with
  | nil => exact h
  | cons f rest ih =>
      have hf : g ≠ f := fun hgf => hg (hgf ▸ List.mem_cons_self _ _)
      have hr : g ∉ rest := fun hn => hg (List.mem_cons_of_mem _ hn)
      exact ih (mem_dictInsert_of_ne h hf) hr

theorem keysNodup_uploadAll {assign : String → String} {l : List String}
    {m : Dict} (hnd : keysNodup m) : keysNodup (uploadAll assign m l) := by
  induction l generalizing m with
  | nil => exact hnd
  | cons f rest ih => exact ih (keysNodup_dictInsert _ _ hnd)

theorem mem_uploadAll_elim {assign : String → String} {l : List String}
    {m : Dict} {g c : String} (hnd : keysNodup m)
    (h : (g, c) ∈ uploadAll assign m l) :
    ((g, c) ∈ m ∧ g ∉ l) ∨ (g ∈ l ∧ c = assign g) := by
  induction l generalizing m with
  | nil => exact Or.inl ⟨h, by simp⟩
  | cons f rest ih =>
      rcases ih (keysNodup_dictInsert _ _ hnd) h with ⟨hm, hr⟩ | ⟨hr, hc⟩
      · rcases mem_dictInsert_elim hnd hm with ⟨hm', hne⟩ | ⟨hgf, hc⟩
        · refine Or.inl ⟨hm', ?_⟩
          intro hmem
          rcases List.mem_cons.1 hmem with h' | h'
          · exact hne h'
          · exact hr h'
        · subst hgf
          exact Or.inr ⟨List.mem_cons_self _ _, hc⟩
      · exact Or.inr ⟨List.mem_cons_of_mem _ hr, hc⟩

theorem filter_uploadAll_sublist {assign : String → String} {l : List String}
    {m : Dict} {c : String} (h : ∀ f ∈ l, assign f ≠ c) :
    ((uploadAll assign m l).filter (fun p => p.2 == c)).Sublist
      (m.filter (fun p => p.2 == c)) := by
  induction l generalizing m with
  | nil => exact List.Sublist.refl _
  | cons f rest ih =>
      refine (ih ?_).trans (filter_dictInsert_sublist (h f (List.mem_cons_self _ _)))
      exact fun g hg => h g (List.mem_cons_of_mem _ hg)
theorem dict_filter_ne_eq_self {m : Dict} {d : String}
    (h : dlookup m d = none) : m.filter (fun p => p.1 != d) = m := by
  rw [List.filter_eq_self]
  intro p hp
  rw [bne_iff_ne]
  intro hpd
  have hk : (dlookup m d).isSome := by
    rw [dlookup_isSome_iff]
    exact hpd ▸ mem_dictKeys (show (p.1, p.2) ∈ m by simpa using hp)
  rw [h] at hk
  simp at hk

theorem removeFiles_eq_filter (m : Dict) (dels : List String) :
    removeFiles m dels = m.filter (fun p => !(dels.contains p.1)) := by
  induction dels generalizing m with
  | nil => simp [removeFiles]
  | cons d rest ih =>
      have hstep : (if (dlookup m d).isSome then m.filter (fun p => p.1 != d) else m)
          = m.filter (fun p => p.1 != d) := by
        by_cases h : (dlookup m d).isSome
        · rw [if_pos h]
        · rw [if_neg h, dict_filter_ne_eq_self (Option.not_isSome_iff_eq_none.1 h)]
      have h1 : removeFiles m (d :: rest)
          = removeFiles (m.filter (fun p => p.1 != d)) rest := by
        simp only [removeFiles, List.foldl_cons]
        rw [hstep]
      rw [h1, ih, List.filter_filter]
      refine List.filter_congr ?_
      intro p _
      simp only [List.contains_cons, Bool.not_or]
      rw [Bool.and_comm]
      rfl

theorem mem_removeFiles {m : Dict} {dels : List String} {g c : String} :
    (g, c) ∈ removeFiles m dels ↔ (g, c) ∈ m ∧ g ∉ dels := by
  rw [removeFiles_eq_filter, List.mem_filter]
  simp

theorem keysNodup_removeFiles {m : Dict} (dels : List String)
    (hnd : keysNodup m) : keysNodup (removeFiles m dels) := by
  rw [removeFiles_eq_filter]
  have hsub : ((m.filter (fun p => !(dels.contains p.1))).map Prod.fst).Sublist
      (m.map Prod.fst) := (List.filter_sublist m).map Prod.fst
  exact hsub.nodup hnd

theorem filter_removeFiles_sublist {m : Dict} {dels : List String}
    {c : String} :
    ((removeFiles m dels).filter (fun p => p.2 == c)).Sublist
      (m.filter (fun p => p.2 == c)) := by
  rw [removeFiles_eq_filter]
  exact (List.filter_sublist m).filter _
theorem mem_setList {s : Finset String} {a : String} : a ∈ setList s ↔ a ∈ s := by
  rcases s with ⟨ms, hnd⟩
  induction ms using Quot.inductionOn with
  | h l =>
      show a ∈ List.insertionSort strLe l ↔ _
      rw [(List.perm_insertionSort strLe l).mem_iff]
      rfl

theorem setList_nodup (s : Finset String) : (setList s).Nodup := by
  rcases s with ⟨ms, hnd⟩
  induction ms using Quot.inductionOn with
  | h l =>
      show (List.insertionSort strLe l).Nodup
      rw [(List.perm_insertionSort strLe l).nodup_iff]
      exact hnd

theorem setList_empty : setList ∅ = [] := rfl

/-- Membership in the tracked set produced by get_tv_images. -/
theorem mem_tracked {inv : Finset String} {m : Dict} {f : String} :
    f ∈ (get_tv_images (some inv) m).1 ↔ ∃ c ∈ inv, rlook m c = some f := by
  simp only [get_tv_images, Finset.mem_image, Finset.mem_filter]
  constructor
  · rintro ⟨c, ⟨hc, hs⟩, hg⟩
    refine ⟨c, hc, ?_⟩
    obtain ⟨g, hgg⟩ := Option.isSome_iff_exists.1 hs
    rw [hgg] at hg ⊢
    simpa using hg
  · rintro ⟨c, hc, hr⟩
    exact ⟨c, ⟨hc, by rw [hr]; rfl⟩, by rw [hr]; rfl⟩

/-- Membership in the unknown set produced by get_tv_images. -/
theorem mem_unknown {inv : Finset String} {m : Dict} {c : String} :
    c ∈ (get_tv_images (some inv) m).2 ↔ c ∈ inv ∧ rlook m c = none := by
  simp [get_tv_images, Option.isNone_iff_eq_none]

/-- A dry-run upload loop does nothing. -/
theorem uploadStep_dry {cfg : SyncConfig} (hdry : cfg.dryRun = true)
    (l : List String) (m : Dict) (inv : Finset String) :
    uploadStep cfg m inv l = ⟨m, inv, [], 0⟩ := by
  induction l generalizing m inv with
  | nil => rfl
  | cons f rest ih =>
      simp only [uploadStep, upload_image, hdry, if_true]
      rw [ih]
      simp

/-- A live upload loop in which every upload succeeds accumulates the
assigned content ids into the mapping and the device inventory. -/
theorem uploadStep_run {cfg : SyncConfig} {assign : String → String}
    (hdry : cfg.dryRun = false) (hup : ∀ f, cfg.uploadResult f = some (assign f))
    (l : List String) (m : Dict) (inv : Finset String) :
    (uploadStep cfg m inv l).mapping = uploadAll assign m l ∧
      (uploadStep cfg m inv l).inventory = inv ∪ (l.map assign).toFinset := by
  induction l generalizing m inv with
  | nil => exact ⟨rfl, by simp [uploadStep, uploadAll]⟩
  | cons f rest ih =>
      simp only [uploadStep, upload_image, hdry, Bool.false_eq_true, if_false, hup f]
      obtain ⟨h1, h2⟩ := ih (dictInsert m f (assign f)) (insert (assign f) inv)
      refine ⟨h1, ?_⟩
      rw [h2]
      simp only [List.map_cons, List.toFinset_cons]
      rw [Finset.insert_union, Finset.union_insert]

/-- The tracked-deletion block, run live with a successful batch delete, on
a to_delete set all of whose filenames are mapped. -/
theorem deleteTrackedStep_run {cfg : SyncConfig} {m : Dict}
    {inv : Finset String} {D : Finset String}
    (hdry : cfg.dryRun = false) (hdel : cfg.deleteOk = true)
    (hsome : ∀ f ∈ D, (dlookup m f).isSome) :
    deleteTrackedStep cfg m inv D =
      ⟨removeFiles m (setList D),
        inv \ ((setList D).filterMap (dlookup m)).toFinset,
        if D = ∅ then [] else [(setList D).filterMap (dlookup m)],
        if D = ∅ then 0 else 1⟩ := by
  by_cases hD : D = ∅
  · subst hD
    simp [deleteTrackedStep, setList_empty, removeFiles]
  · obtain ⟨f, hf⟩ := Finset.nonempty_iff_ne_empty.2 hD
    obtain ⟨c, hc⟩ := Option.isSome_iff_exists.1 (hsome f hf)
    have hcids : (setList D).filterMap (dlookup m) ≠ [] := by
      intro he
      have : c ∈ (setList D).filterMap (dlookup m) :=
        List.mem_filterMap.2 ⟨f, mem_setList.2 hf, hc⟩
      rw [he] at this
      simp at this
    simp only [deleteTrackedStep, if_neg hD, hcids, if_neg hD, hdry,
      Bool.false_eq_true, if_false, hdel, if_true, ne_eq, hD,
      not_false_eq_true]

/-- The unknown-deletion block changes the inventory to one of two values. -/
theorem deleteUnknownStep_inventory {cfg : SyncConfig} {inv u : Finset String} :
    (deleteUnknownStep cfg inv u).inventory = inv ∨
      (deleteUnknownStep cfg inv u).inventory = inv \ u := by
  unfold deleteUnknownStep
  by_cases h : cfg.removeUnknown = true ∧ u ≠ ∅
  · rw [if_pos h]
    by_cases hdry : cfg.dryRun = true
    · rw [if_pos hdry]; exact Or.inl rfl
    · rw [if_neg hdry]
      by_cases hok : cfg.deleteUnknownOk = true
      · rw [if_pos hok]; exact Or.inr rfl
      · rw [if_neg hok]; exact Or.inl rfl
  · rw [if_neg h]; exact Or.inl rfl

theorem syncPass_toUpload (cfg : SyncConfig) (local_images : Finset String)
    (fetch : Option (Finset String)) (st : SyncState) :
    (syncPass cfg local_images fetch st).toUpload =
      local_images \ (get_tv_images fetch st.mapping).1 := rfl

theorem syncPass_toDelete (cfg : SyncConfig) (local_images : Finset String)
    (fetch : Option (Finset String)) (st : SyncState) :
    (syncPass cfg local_images fetch st).toDelete =
      (get_tv_images fetch st.mapping).1 \ local_images := rfl

theorem syncPass_unknownImages (cfg : SyncConfig) (local_images : Finset String)
    (fetch : Option (Finset String)) (st : SyncState) :
    (syncPass cfg local_images fetch st).unknownImages =
      (get_tv_images fetch st.mapping).2 := rfl

theorem syncPass_mapping (cfg : SyncConfig) (local_images : Finset String)
    (fetch : Option (Finset String)) (st : SyncState) :
    (syncPass cfg local_images fetch st).mapping =
      (deleteTrackedStep cfg
        (uploadStep cfg st.mapping st.inventory
          (setList (local_images \ (get_tv_images fetch st.mapping).1))).mapping
        (uploadStep cfg st.mapping st.inventory
          (setList (local_images \ (get_tv_images fetch st.mapping).1))).inventory
        ((get_tv_images fetch st.mapping).1 \ local_images)).mapping := rfl

theorem syncPass_inventory (cfg : SyncConfig) (local_images : Finset String)
    (fetch : Option (Finset String)) (st : SyncState) :
    (syncPass cfg local_images fetch st).inventory =
      (deleteUnknownStep cfg
        (deleteTrackedStep cfg
          (uploadStep cfg st.mapping st.inventory
            (setList (local_images \ (get_tv_images fetch st.mapping).1))).mapping
          (uploadStep cfg st.mapping st.inventory
            (setList (local_images \ (get_tv_images fetch st.mapping).1))).inventory
          ((get_tv_images fetch st.mapping).1 \ local_images)).inventory
        (get_tv_images fetch st.mapping).2).inventory := rfl
theorem mem_dictValues_of_mem {m : Dict} {g c : String} (h : (g, c) ∈ m) :
    c ∈ dictValues m :=
  List.mem_map_of_mem Prod.snd h

/-- After a fully successful reconciliation pass with fresh content ids, the
device inventory and the mapping track exactly the local set. -/
theorem tracked_reconcile
    {assign : String → String} {local_images tr unk U D u : Finset String}
    {m m' m2 : Dict} {inv inv2 : Finset String} {ups dels cids : List String}
    (hnd : keysNodup m)
    (hfresh_inv : ∀ f, assign f ∉ inv)
    (hfresh_val : ∀ f, assign f ∉ dictValues m)
    (hinj : Function.Injective assign)
    (htr : tr = (get_tv_images (some inv) m).1)
    (hunk : unk = (get_tv_images (some inv) m).2)
    (hU : U = local_images \ tr)
    (hD : D = tr \ local_images)
    (hups : ups = setList U)
    (hdels : dels = setList D)
    (hm' : m' = uploadAll assign m ups)
    (hcids : cids = dels.filterMap (dlookup m'))
    (hm2 : m2 = removeFiles m' dels)
    (hu : u ⊆ unk)
    (hinv2 : inv2 = ((inv ∪ (ups.map assign).toFinset) \ cids.toFinset) \ u) :
    (get_tv_images (some inv2) m2).1 = local_images := by
  have hassign_ne : ∀ c, c ∈ dictValues m → ∀ g, assign g ≠ c := by
    intro c hcv g hgc
    exact hfresh_val g (hgc.symm ▸ hcv)
  have hsub_m2 : ∀ c, c ∈ dictValues m →
      ((m2.filter (fun p => p.2 == c)).Sublist (m.filter (fun p => p.2 == c))) := by
    intro c hcv
    rw [hm2, hm']
    exact filter_removeFiles_sublist.trans
      (filter_uploadAll_sublist (fun f _ => hassign_ne c hcv f))
  have hmem_ups : ∀ f, f ∈ ups ↔ f ∈ U := fun f => by rw [hups]; exact mem_setList
  have hmem_dels : ∀ f, f ∈ dels ↔ f ∈ D := fun f => by rw [hdels]; exact mem_setList
  have hinv2_mem : ∀ c, c ∈ inv2 ↔
      ((c ∈ inv ∨ ∃ g ∈ ups, assign g = c) ∧ c ∉ cids ∧ c ∉ u) := by
    intro c
    rw [hinv2]
    simp only [Finset.mem_sdiff, Finset.mem_union, List.mem_toFinset, List.mem_map]
    constructor
    · rintro ⟨⟨hor, hnc⟩, hnu⟩
      refine ⟨?_, hnc, hnu⟩
      rcases hor with h | ⟨g, hg, hgc⟩
      · exact Or.inl h
      · exact Or.inr ⟨g, hg, hgc⟩
    · rintro ⟨hor, hnc, hnu⟩
      refine ⟨⟨?_, hnc⟩, hnu⟩
      rcases hor with h | ⟨g, hg, hgc⟩
      · exact Or.inl h
      · exact Or.inr ⟨g, hg, hgc⟩
  ext f
  constructor
  · intro hf
    obtain ⟨c, hc2, hr2⟩ := mem_tracked.1 hf
    have hmem2 : (f, c) ∈ m2 := mem_of_rlook hr2
    rw [hm2] at hmem2
    obtain ⟨hmemm', hfndels⟩ := mem_removeFiles.1 hmem2
    rw [hm'] at hmemm'
    rcases mem_uploadAll_elim hnd hmemm' with ⟨hmm, hnups⟩ | ⟨hfups, _⟩
    · by_contra hflocal
      have hfnotTr : f ∉ tr := by
        intro hftr
        have hfD : f ∈ D := by rw [hD]; exact Finset.mem_sdiff.2 ⟨hftr, hflocal⟩
        exact hfndels ((hmem_dels f).2 hfD)
      have hcval : c ∈ dictValues m := mem_dictValues_of_mem hmm
      obtain ⟨hor, hnc, hnu⟩ := (hinv2_mem c).1 hc2
      have hcinv : c ∈ inv := by
        rcases hor with h | ⟨g, _, hgc⟩
        · exact h
        · exact absurd (hgc.symm ▸ hcval) (hfresh_val g)
      obtain ⟨g, hg⟩ := Option.isSome_iff_exists.1 (rlook_isSome hmm)
      have hgf : g ≠ f := by
        intro he
        subst he
        exact hfnotTr (by rw [htr]; exact mem_tracked.2 ⟨c, hcinv, hg⟩)
      have hgm : (g, c) ∈ m := mem_of_rlook hg
      have hgtr : g ∈ tr := by rw [htr]; exact mem_tracked.2 ⟨c, hcinv, hg⟩
      have hgnups : g ∉ ups := by
        intro hgu
        have h1 := (hmem_ups g).1 hgu
        rw [hU] at h1
        exact (Finset.mem_sdiff.1 h1).2 hgtr
      by_cases hglocal : g ∈ local_images
      · have hgndels : g ∉ dels := by
          intro hgd
          have h1 := (hmem_dels g).1 hgd
          rw [hD] at h1
          exact (Finset.mem_sdiff.1 h1).2 hglocal
        have hgm2 : (g, c) ∈ m2 := by
          rw [hm2]
          exact mem_removeFiles.2 ⟨by rw [hm']; exact mem_uploadAll_of_not_mem hgm hgnups, hgndels⟩
        have hstab := rlook_stable hnd hg hgm2 (hsub_m2 c hcval)
        rw [hr2] at hstab
        exact hgf (Option.some.inj hstab).symm
      · have hgD : g ∈ D := by rw [hD]; exact Finset.mem_sdiff.2 ⟨hgtr, hglocal⟩
        have hlook : dlookup m' g = some c := by
          rw [hm', dlookup_uploadAll_not_mem hgnups]
          exact dlookup_eq_some_of_mem hnd hgm
        have hccids : c ∈ cids := by
          rw [hcids]
          exact List.mem_filterMap.2 ⟨g, (hmem_dels g).2 hgD, hlook⟩
        exact hnc hccids
    · have h1 := (hmem_ups f).1 hfups
      rw [hU] at h1
      exact (Finset.mem_sdiff.1 h1).1
  · intro hflocal
    have hfndels : f ∉ dels := by
      intro hfd
      have h1 := (hmem_dels f).1 hfd
      rw [hD] at h1
      exact (Finset.mem_sdiff.1 h1).2 hflocal
    by_cases hftr : f ∈ tr
    · obtain ⟨c, hcinv, hrc⟩ := mem_tracked.1 (htr ▸ hftr)
      have hfm : (f, c) ∈ m := mem_of_rlook hrc
      have hfnups : f ∉ ups := by
        intro hfu
        have h1 := (hmem_ups f).1 hfu
        rw [hU] at h1
        exact (Finset.mem_sdiff.1 h1).2 hftr
      have hfm2 : (f, c) ∈ m2 := by
        rw [hm2]
        exact mem_removeFiles.2 ⟨by rw [hm']; exact mem_uploadAll_of_not_mem hfm hfnups, hfndels⟩
      have hcval : c ∈ dictValues m := mem_dictValues_of_mem hfm
      have hcncids : c ∉ cids := by
        intro hcc
        rw [hcids] at hcc
        obtain ⟨h, hhdels, hhlook⟩ := List.mem_filterMap.1 hcc
        obtain ⟨hhtr, hhnl⟩ := Finset.mem_sdiff.1 (hD ▸ (hmem_dels h).1 hhdels)
        have hhnups : h ∉ ups := by
          intro hhu
          exact (Finset.mem_sdiff.1 (hU ▸ (hmem_ups h).1 hhu)).2 hhtr
        rw [hm', dlookup_uploadAll_not_mem hhnups] at hhlook
        have hhm : (h, c) ∈ m := dlookup_mem hhlook
        obtain ⟨c', hc'inv, hrc'⟩ := mem_tracked.1 (htr ▸ hhtr)
        have hhm' : (h, c') ∈ m := mem_of_rlook hrc'
        have hcc' : c = c' := value_unique hnd hhm hhm'
        rw [← hcc'] at hrc'
        rw [hrc] at hrc'
        exact hhnl ((Option.some.inj hrc') ▸ hflocal)
      have hcnu : c ∉ u := by
        intro hcu
        have h1 := hu hcu
        rw [hunk] at h1
        have h2 := (mem_unknown.1 h1).2
        rw [hrc] at h2
        simp at h2
      have hcinv2 : c ∈ inv2 := (hinv2_mem c).2 ⟨Or.inl hcinv, hcncids, hcnu⟩
      have hr2 : rlook m2 c = some f := rlook_stable hnd hrc hfm2 (hsub_m2 c hcval)
      exact mem_tracked.2 ⟨c, hcinv2, hr2⟩
    · have hfU : f ∈ U := by rw [hU]; exact Finset.mem_sdiff.2 ⟨hflocal, hftr⟩
      have hfups : f ∈ ups := (hmem_ups f).2 hfU
      have hlookf : dlookup m' f = some (assign f) := by
        rw [hm']
        exact dlookup_uploadAll_mem (by rw [hups]; exact setList_nodup U) hfups
      have hfm' : (f, assign f) ∈ m' := dlookup_mem hlookf
      have hfm2 : (f, assign f) ∈ m2 := by
        rw [hm2]
        exact mem_removeFiles.2 ⟨hfm', hfndels⟩
      have hcncids : assign f ∉ cids := by
        intro hcc
        rw [hcids] at hcc
        obtain ⟨h, hhdels, hhlook⟩ := List.mem_filterMap.1 hcc
        obtain ⟨hhtr, hhnl⟩ := Finset.mem_sdiff.1 (hD ▸ (hmem_dels h).1 hhdels)
        have hhnups : h ∉ ups := by
          intro hhu
          exact (Finset.mem_sdiff.1 (hU ▸ (hmem_ups h).1 hhu)).2 hhtr
        rw [hm', dlookup_uploadAll_not_mem hhnups] at hhlook
        exact hfresh_val f (mem_dictValues_of_mem (dlookup_mem hhlook))
      have hcnu : assign f ∉ u := by
        intro hcu
        have h1 := hu hcu
        rw [hunk] at h1
        exact hfresh_inv f (mem_unknown.1 h1).1
      have hcinv2 : assign f ∈ inv2 :=
        (hinv2_mem _).2 ⟨Or.inr ⟨f, hfups, rfl⟩, hcncids, hcnu⟩
      have hr2 : rlook m2 (assign f) = some f := by
        refine rlook_eq_of_unique hfm2 ?_
        intro g hg
        rw [hm2] at hg
        have hgm' := (mem_removeFiles.1 hg).1
        rw [hm'] at hgm'
        rcases mem_uploadAll_elim hnd hgm' with ⟨hgm, _⟩ | ⟨_, hgc⟩
        · exact absurd (mem_dictValues_of_mem hgm) (hfresh_val f)
        · exact (hinj hgc).symm
      exact mem_tracked.2 ⟨assign f, hcinv2, hr2⟩
/-- State left by a live pass whose uploads all succeed with ids given by
`assign` and whose tracked batch delete succeeds. -/
theorem syncPass_final_state
    (cfg : SyncConfig) (assign : String → String)
    (local_images : Finset String) (m : Dict) (inv : Finset String)
    (hdry : cfg.dryRun = false) (hdel : cfg.deleteOk = true)
    (hup : ∀ f, cfg.uploadResult f = some (assign f))
    (hnd : keysNodup m) :
    ((syncPass cfg local_images (some inv) ⟨m, inv⟩).mapping =
      removeFiles
        (uploadAll assign m (setList (local_images \ (get_tv_images (some inv) m).1)))
        (setList ((get_tv_images (some inv) m).1 \ local_images))) ∧
    (∃ u ⊆ (get_tv_images (some inv) m).2,
      (syncPass cfg local_images (some inv) ⟨m, inv⟩).inventory =
        ((inv ∪ ((setList (local_images \ (get_tv_images (some inv) m).1)).map assign).toFinset) \
          ((setList ((get_tv_images (some inv) m).1 \ local_images)).filterMap
            (dlookup (uploadAll assign m
              (setList (local_images \ (get_tv_images (some inv) m).1))))).toFinset) \ u) := by
  have hupR := @uploadStep_run cfg assign hdry hup
    (setList (local_images \ (get_tv_images (some inv) m).1)) m inv
  have hsome : ∀ f ∈ (get_tv_images (some inv) m).1 \ local_images,
      (dlookup (uploadStep cfg m inv
        (setList (local_images \ (get_tv_images (some inv) m).1))).mapping f).isSome := by
    intro f hfD
    obtain ⟨hftr, _⟩ := Finset.mem_sdiff.1 hfD
    obtain ⟨c, _, hrc⟩ := mem_tracked.1 hftr
    have hfm : (f, c) ∈ m := mem_of_rlook hrc
    have hfnups : f ∉ setList (local_images \ (get_tv_images (some inv) m).1) := by
      intro hfu
      exact (Finset.mem_sdiff.1 (mem_setList.1 hfu)).2 hftr
    rw [hupR.1, dlookup_uploadAll_not_mem hfnups, dlookup_eq_some_of_mem hnd hfm]
    rfl
  have hdelR := @deleteTrackedStep_run cfg
    (uploadStep cfg m inv (setList (local_images \ (get_tv_images (some inv) m).1))).mapping
    (uploadStep cfg m inv (setList (local_images \ (get_tv_images (some inv) m).1))).inventory
    ((get_tv_images (some inv) m).1 \ local_images)
    hdry hdel hsome
  constructor
  · rw [syncPass_mapping, hdelR, hupR.1]
  · rcases @deleteUnknownStep_inventory cfg
      ((deleteTrackedStep cfg
        (uploadStep cfg m inv (setList (local_images \ (get_tv_images (some inv) m).1))).mapping
        (uploadStep cfg m inv (setList (local_images \ (get_tv_images (some inv) m).1))).inventory
        ((get_tv_images (some inv) m).1 \ local_images)).inventory)
      ((get_tv_images (some inv) m).2) with h | h
    · refine ⟨∅, Finset.empty_subset _, ?_⟩
      rw [syncPass_inventory, h, hdelR, Finset.sdiff_empty]
      rw [hupR.1, hupR.2]
    · refine ⟨(get_tv_images (some inv) m).2, Finset.Subset.refl _, ?_⟩
      rw [syncPass_inventory, h, hdelR]
      rw [hupR.1, hupR.2]
/-- C4: reconciliation is idempotent: after a live pass in which every
upload succeeds with a fresh content id and the batched deletions succeed,
a second pass on the unchanged local set and the resulting device inventory
computes empty upload and delete sets. -/
theorem sync_idempotent
    (cfg : SyncConfig) (assign : String → String)
    (local_images : Finset String) (m : Dict) (inv : Finset String)
    (hdry : cfg.dryRun = false) (hdel : cfg.deleteOk = true)
    (hup : ∀ f, cfg.uploadResult f = some (assign f))
    (hnd : keysNodup m)
    (hfresh_inv : ∀ f, assign f ∉ inv)
    (hfresh_val : ∀ f, assign f ∉ dictValues m)
    (hinj : Function.Injective assign) :
    (syncPass cfg local_images
        (some (syncPass cfg local_images (some inv) ⟨m, inv⟩).inventory)
        ⟨(syncPass cfg local_images (some inv) ⟨m, inv⟩).mapping,
          (syncPass cfg local_images (some inv) ⟨m, inv⟩).inventory⟩).toUpload = ∅ ∧
    (syncPass cfg local_images
        (some (syncPass cfg local_images (some inv) ⟨m, inv⟩).inventory)
        ⟨(syncPass cfg local_images (some inv) ⟨m, inv⟩).mapping,
          (syncPass cfg local_images (some inv) ⟨m, inv⟩).inventory⟩).toDelete = ∅ := by
  obtain ⟨hmap, u, hu, hinv2⟩ :=
    syncPass_final_state cfg assign local_images m inv hdry hdel hup hnd
  have htr2 : (get_tv_images
      (some (syncPass cfg local_images (some inv) ⟨m, inv⟩).inventory)
      (syncPass cfg local_images (some inv) ⟨m, inv⟩).mapping).1 = local_images :=
    tracked_reconcile hnd hfresh_inv hfresh_val hinj rfl rfl rfl rfl rfl rfl
      rfl rfl hmap hu hinv2
  constructor
  · rw [syncPass_toUpload]
    show local_images \ (get_tv_images
      (some (syncPass cfg local_images (some inv) ⟨m, inv⟩).inventory)
      (syncPass cfg local_images (some inv) ⟨m, inv⟩).mapping).1 = ∅
    rw [htr2, Finset.sdiff_self]
  · rw [syncPass_toDelete]
    show (get_tv_images
      (some (syncPass cfg local_images (some inv) ⟨m, inv⟩).inventory)
      (syncPass cfg local_images (some inv) ⟨m, inv⟩).mapping).1 \ local_images = ∅
    rw [htr2, Finset.sdiff_self]
theorem deleteTrackedStep_dry {cfg : SyncConfig} (hdry : cfg.dryRun = true)
    (m : Dict) (inv : Finset String) (D : Finset String) :
    deleteTrackedStep cfg m inv D = ⟨m, inv, [], 0⟩ := by
  unfold deleteTrackedStep
  by_cases hD : D ≠ ∅
  · rw [if_pos hD]
    by_cases hc : (setList D).filterMap (dlookup m) ≠ []
    · rw [if_pos hc, if_pos hdry]
    · rw [if_neg hc]
  · rw [if_neg hD]

theorem deleteUnknownStep_dry {cfg : SyncConfig} (hdry : cfg.dryRun = true)
    (inv : Finset String) (u : Finset String) :
    deleteUnknownStep cfg inv u = ⟨inv, []⟩ := by
  unfold deleteUnknownStep
  by_cases h : cfg.removeUnknown = true ∧ u ≠ ∅
  · rw [if_pos h, if_pos hdry]
  · rw [if_neg h]

theorem deleteTrackedStep_empty (cfg : SyncConfig) (m : Dict)
    (inv : Finset String) : deleteTrackedStep cfg m inv ∅ = ⟨m, inv, [], 0⟩ := by
  unfold deleteTrackedStep
  simp

theorem deleteUnknownStep_empty (cfg : SyncConfig) (inv : Finset String) :
    deleteUnknownStep cfg inv ∅ = ⟨inv, []⟩ := by
  unfold deleteUnknownStep
  simp

theorem syncPass_deleteRequests (cfg : SyncConfig) (local_images : Finset String)
    (fetch : Option (Finset String)) (st : SyncState) :
    (syncPass cfg local_images fetch st).deleteRequests =
      (deleteTrackedStep cfg
        (uploadStep cfg st.mapping st.inventory
          (setList (local_images \ (get_tv_images fetch st.mapping).1))).mapping
        (uploadStep cfg st.mapping st.inventory
          (setList (local_images \ (get_tv_images fetch st.mapping).1))).inventory
        ((get_tv_images fetch st.mapping).1 \ local_images)).requests ++
      (deleteUnknownStep cfg
        (deleteTrackedStep cfg
          (uploadStep cfg st.mapping st.inventory
            (setList (local_images \ (get_tv_images fetch st.mapping).1))).mapping
          (uploadStep cfg st.mapping st.inventory
            (setList (local_images \ (get_tv_images fetch st.mapping).1))).inventory
          ((get_tv_images fetch st.mapping).1 \ local_images)).inventory
        (get_tv_images fetch st.mapping).2).requests := rfl

/-- A dry-run pass computes the decision sets and changes nothing: every
state field is untouched and every call log is empty (the select decision,
which dry run does evaluate against the untouched mapping, is the one field
this lemma leaves unconstrained). -/
theorem syncPass_dry {cfg : SyncConfig} (hdry : cfg.dryRun = true)
    (local_images : Finset String) (fetch : Option (Finset String))
    (st : SyncState) :
    (syncPass cfg local_images fetch st).toUpload =
        local_images \ (get_tv_images fetch st.mapping).1 ∧
      (syncPass cfg local_images fetch st).toDelete =
        (get_tv_images fetch st.mapping).1 \ local_images ∧
      (syncPass cfg local_images fetch st).unknownImages =
        (get_tv_images fetch st.mapping).2 ∧
      (syncPass cfg local_images fetch st).mapping = st.mapping ∧
      (syncPass cfg local_images fetch st).inventory = st.inventory ∧
      (syncPass cfg local_images fetch st).uploadCalls = [] ∧
      (syncPass cfg local_images fetch st).deleteRequests = [] ∧
      (syncPass cfg local_images fetch st).selectCalls = [] ∧
      (syncPass cfg local_images fetch st).slideshowCalls = 0 ∧
      (syncPass cfg local_images fetch st).brightnessCalls = [] ∧
      (syncPass cfg local_images fetch st).saveCalls = 0 := by
  cases hb : cfg.brightness <;>
    simp [syncPass, uploadStep_dry hdry, deleteTrackedStep_dry hdry,
      deleteUnknownStep_dry hdry, hdry, hb, apply_ite Prod.fst,
      apply_ite Prod.snd]

theorem cids_ne_nil {m : Dict} {D : Finset String} (hne : D ≠ ∅)
    (hsome : ∀ f ∈ D, (dlookup m f).isSome) :
    (setList D).filterMap (dlookup m) ≠ [] := by
  obtain ⟨f, hf⟩ := Finset.nonempty_iff_ne_empty.2 hne
  obtain ⟨c, hc⟩ := Option.isSome_iff_exists.1 (hsome f hf)
  intro he
  have : c ∈ (setList D).filterMap (dlookup m) :=
    List.mem_filterMap.2 ⟨f, mem_setList.2 hf, hc⟩
  rw [he] at this
  simp at this

theorem deleteTrackedStep_fail {cfg : SyncConfig} {m : Dict}
    {inv : Finset String} {D : Finset String}
    (hdry : cfg.dryRun = false) (hdel : cfg.deleteOk = false) (hne : D ≠ ∅)
    (hsome : ∀ f ∈ D, (dlookup m f).isSome) :
    deleteTrackedStep cfg m inv D =
      ⟨m, inv, [(setList D).filterMap (dlookup m)], 0⟩ := by
  unfold deleteTrackedStep
  rw [if_pos hne, if_pos (cids_ne_nil hne hsome), if_neg (by rw [hdry]; simp),
    if_neg (by rw [hdel]; simp)]

theorem dlookup_filter_of_key {m : Dict} {P : String × String → Bool}
    {f : String} (h : ∀ v, P (f, v) = true) :
    dlookup (m.filter P) f = dlookup m f := by
  induction m with
  | nil => rfl
  | cons p rest ih =>
      obtain ⟨k, v⟩ := p
      by_cases hk : f = k
      · subst hk
        rw [List.filter_cons, if_pos (h v)]
        simp [dlookup]
      · rw [List.filter_cons]
        by_cases hp : P (k, v) = true
        · rw [if_pos hp]
          simp only [dlookup, if_neg hk]
          exact ih
        · simp only [Bool.not_eq_true] at hp
          rw [hp]
          simp only [Bool.false_eq_true, if_false]
          rw [ih]
          simp [dlookup, if_neg hk]


theorem dlookup_filter_of_key_false {m : Dict} {P : String × String → Bool}
    {f : String} (h : ∀ v, P (f, v) = false) :
    dlookup (m.filter P) f = none := by
  induction m with
  | nil => rfl
  | cons p rest ih =>
      obtain ⟨k, v⟩ := p
      by_cases hk : f = k
      · subst hk
        rw [List.filter_cons, h v]
        simp only [Bool.false_eq_true, if_false]
        exact ih
      · rw [List.filter_cons]
        by_cases hp : P (k, v) = true
        · rw [if_pos hp]
          simp only [dlookup, if_neg hk]
          exact ih
        · simp only [Bool.not_eq_true] at hp
          rw [hp]
          simp only [Bool.false_eq_true, if_false]
          exact ih

theorem setList_contains_true {s : Finset String} {f : String} (h : f ∈ s) :
    (setList s).contains f = true := by
  rw [List.elem_iff]
  exact mem_setList.2 h

theorem setList_contains_false {s : Finset String} {f : String} (h : f ∉ s) :
    (setList s).contains f = false := by
  rw [← Bool.not_eq_true, List.elem_iff]
  intro hm
  exact h (mem_setList.1 hm)
/-- C1: reconciliation computes to_upload and to_delete as the two set
differences of the local set against the tracked set, which are disjoint;
on local set a.jpg, b.png with mapping a.jpg ↦ C1 and inventory C1, C9 the
tracked set is a.jpg, the unknown set is C9, to_upload is b.png and
to_delete is empty. -/
theorem reconcile_diff (cfg : SyncConfig) (local_images : Finset String)
    (fetch : Option (Finset String)) (st : SyncState) :
    ((syncPass cfg local_images fetch st).toUpload =
        local_images \ (get_tv_images fetch st.mapping).1 ∧
      (syncPass cfg local_images fetch st).toDelete =
        (get_tv_images fetch st.mapping).1 \ local_images ∧
      Disjoint (syncPass cfg local_images fetch st).toUpload
        (syncPass cfg local_images fetch st).toDelete) ∧
    (get_tv_images (some {"C1", "C9"}) [("a.jpg", "C1")] =
        ({"a.jpg"}, {"C9"}) ∧
      (syncPass cfg {"a.jpg", "b.png"} (some {"C1", "C9"})
          ⟨[("a.jpg", "C1")], {"C1", "C9"}⟩).toUpload = {"b.png"} ∧
      (syncPass cfg {"a.jpg", "b.png"} (some {"C1", "C9"})
          ⟨[("a.jpg", "C1")], {"C1", "C9"}⟩).toDelete = ∅) := by
  refine ⟨⟨rfl, rfl, ?_⟩, ?_, ?_, ?_⟩
  · rw [syncPass_toUpload, syncPass_toDelete]
    exact disjoint_sdiff_sdiff
  · decide
  · rw [syncPass_toUpload]
    decide
  · rw [syncPass_toDelete]
    decide

/-- C2: get_tv_images partitions the fetched inventory by membership in the
reverse mapping: a content id that is a value of the mapping puts its
reverse-lookup filename into the tracked set, and one that is not is put
into the unknown set, so no inventory id is dropped from both. -/
theorem get_tv_images_partition (inv : Finset String) (m : Dict) :
    ∀ c ∈ inv,
      (c ∈ dictValues m →
        ∃ f, rlook m c = some f ∧ f ∈ (get_tv_images (some inv) m).1) ∧
      (c ∉ dictValues m → c ∈ (get_tv_images (some inv) m).2) := by
  intro c hc
  constructor
  · intro hcv
    obtain ⟨f, hf⟩ := Option.isSome_iff_exists.1 ((rlook_isSome_iff m c).2 hcv)
    exact ⟨f, hf, mem_tracked.2 ⟨c, hc, hf⟩⟩
  · intro hcv
    refine mem_unknown.2 ⟨hc, ?_⟩
    rw [← Option.not_isSome_iff_eq_none]
    intro hs
    exact hcv ((rlook_isSome_iff m c).1 hs)

theorem get_tv_images_partition_witness :
    ("C1" : String) ∈ ({"C1", "C9"} : Finset String) ∧
    ("C9" : String) ∈ ({"C1", "C9"} : Finset String) ∧
    (("C1" : String) ∈ dictValues [("a.jpg", "C1")] →
      ∃ f, rlook [("a.jpg", "C1")] "C1" = some f ∧
        f ∈ (get_tv_images (some {"C1", "C9"}) [("a.jpg", "C1")]).1) ∧
    (("C9" : String) ∉ dictValues [("a.jpg", "C1")] →
      "C9" ∈ (get_tv_images (some {"C1", "C9"}) [("a.jpg", "C1")]).2) :=
  ⟨by decide, by decide,
    (get_tv_images_partition {"C1", "C9"} [("a.jpg", "C1")] "C1" (by decide)).1,
    (get_tv_images_partition {"C1", "C9"} [("a.jpg", "C1")] "C9" (by decide)).2⟩
/-- C3: a non-empty tracked deletion goes out as one batched request; on
success exactly the filenames of to_delete leave the mapping and it is
saved once; on failure the mapping is untouched; the scenario deletes c.jpg
from the mapping a.jpg ↦ C1, c.jpg ↦ C3 with local set a.jpg. -/
theorem batch_delete_spec (cfg : SyncConfig) (m : Dict) (inv : Finset String)
    (to_delete : Finset String)
    (hdry : cfg.dryRun = false) (hne : to_delete ≠ ∅)
    (hsome : ∀ f ∈ to_delete, (dlookup m f).isSome) :
    ((deleteTrackedStep cfg m inv to_delete).requests =
        [(setList to_delete).filterMap (dlookup m)] ∧
      (cfg.deleteOk = true →
        (deleteTrackedStep cfg m inv to_delete).saves = 1 ∧
        (∀ f ∈ to_delete,
          dlookup (deleteTrackedStep cfg m inv to_delete).mapping f = none) ∧
        (∀ f, f ∉ to_delete →
          dlookup (deleteTrackedStep cfg m inv to_delete).mapping f =
            dlookup m f)) ∧
      (cfg.deleteOk = false →
        (deleteTrackedStep cfg m inv to_delete).mapping = m ∧
        (deleteTrackedStep cfg m inv to_delete).saves = 0)) ∧
    (syncPass
        ⟨false, false, false, false, "15", false, none, none,
          fun _ => none, true, true, fun l => l.headD ("")⟩
        {"a.jpg"} (some {"C1", "C3"})
        ⟨[("a.jpg", "C1"), ("c.jpg", "C3")], {"C1", "C3"}⟩).mapping =
      [("a.jpg", "C1")] := by
  refine ⟨⟨?_, ?_, ?_⟩, by decide⟩
  · by_cases hok : cfg.deleteOk = true
    · rw [deleteTrackedStep_run hdry hok hsome]
      simp [hne]
    · rw [deleteTrackedStep_fail hdry (by simpa using hok) hne hsome]
  · intro hok
    rw [deleteTrackedStep_run hdry hok hsome]
    refine ⟨by simp [hne], ?_, ?_⟩
    · intro f hf
      show dlookup (removeFiles m (setList to_delete)) f = none
      rw [removeFiles_eq_filter]
      refine dlookup_filter_of_key_false ?_
      intro v
      rw [setList_contains_true hf]
      rfl
    · intro f hf
      show dlookup (removeFiles m (setList to_delete)) f = dlookup m f
      rw [removeFiles_eq_filter]
      refine dlookup_filter_of_key ?_
      intro v
      rw [setList_contains_false hf]
      rfl
  · intro hok
    rw [deleteTrackedStep_fail hdry hok hne hsome]
    exact ⟨rfl, rfl⟩

theorem batch_delete_spec_witness :
    (deleteTrackedStep
        ⟨false, false, false, false, "15", false, none, none,
          fun _ => none, true, true, fun l => l.headD ("")⟩
        [("a.jpg", "C1"), ("c.jpg", "C3")] {"C1", "C3"} {"c.jpg"}).requests =
      [(setList ({"c.jpg"} : Finset String)).filterMap
        (dlookup [("a.jpg", "C1"), ("c.jpg", "C3")])] :=
  (batch_delete_spec
    ⟨false, false, false, false, "15", false, none, none,
      fun _ => none, true, true, fun l => l.headD ("")⟩
    [("a.jpg", "C1"), ("c.jpg", "C3")] {"C1", "C3"} {"c.jpg"}
    rfl (by decide) (by decide)).1.1
/-- C5 amended: a dry-run pass computes the same upload, delete and unknown
sets as the live pass on the same inputs, issues no mutating device call
(no upload, no delete request, no select, no slideshow restart, no
brightness call), saves nothing, and leaves the mapping and the device
inventory untouched; the select decision is not included, since dry run
evaluates it against the untouched mapping while live mode evaluates it
after its own mutations, so it can differ between the modes. -/
theorem dry_run_same_decisions
    (cfg : SyncConfig) (local_images : Finset String)
    (fetch : Option (Finset String)) (st : SyncState)
    (hdry : cfg.dryRun = true) :
    (syncPass cfg local_images fetch st).toUpload =
      (syncPass { cfg with dryRun := false } local_images fetch st).toUpload ∧
    (syncPass cfg local_images fetch st).toDelete =
      (syncPass { cfg with dryRun := false } local_images fetch st).toDelete ∧
    (syncPass cfg local_images fetch st).unknownImages =
      (syncPass { cfg with dryRun := false } local_images fetch st).unknownImages ∧
    (syncPass cfg local_images fetch st).mapping = st.mapping ∧
    (syncPass cfg local_images fetch st).inventory = st.inventory ∧
    (syncPass cfg local_images fetch st).uploadCalls = [] ∧
    (syncPass cfg local_images fetch st).deleteRequests = [] ∧
    (syncPass cfg local_images fetch st).selectCalls = [] ∧
    (syncPass cfg local_images fetch st).slideshowCalls = 0 ∧
    (syncPass cfg local_images fetch st).brightnessCalls = [] ∧
    (syncPass cfg local_images fetch st).saveCalls = 0 := by
  obtain ⟨h1, h2, h3, h4, h5, h6, h7, h8, h9, h10, h11⟩ :=
    syncPass_dry hdry local_images fetch st
  refine ⟨?_, ?_, ?_, h4, h5, h6, h7, h8, h9, h10, h11⟩
  · rw [h1, syncPass_toUpload]
  · rw [h2, syncPass_toDelete]
  · rw [h3, syncPass_unknownImages]

theorem dry_run_same_decisions_witness :
    (syncPass
        ⟨true, false, false, false, "15", false, none, none,
          fun _ => none, true, true, fun l => l.headD ("")⟩
        {"a.jpg"} (some {"C1", "C3"})
        ⟨[("a.jpg", "C1"), ("c.jpg", "C3")], {"C1", "C3"}⟩).mapping =
      [("a.jpg", "C1"), ("c.jpg", "C3")] :=
  (dry_run_same_decisions
    ⟨true, false, false, false, "15", false, none, none,
      fun _ => none, true, true, fun l => l.headD ("")⟩
    {"a.jpg"} (some {"C1", "C3"})
    ⟨[("a.jpg", "C1"), ("c.jpg", "C3")], {"C1", "C3"}⟩ rfl).2.2.2.1

/-- C5 counterexample: on mapping a.jpg ↦ C1, device inventory C1 and local
set b.png, with the upload answering C2, the dry-run pass and the live pass
compute different select decisions: dry run evaluates the selection against
the untouched mapping and would select C1, while the live pass selects from
the mapping after its upload and deletion and picks C2. -/
theorem dry_run_select_differs :
    (syncPass
        ⟨true, false, false, false, "15", false, none, none,
          fun _ => some ("C2"), true, true, fun l => l.headD ("")⟩
        {"b.png"} (some {"C1"})
        ⟨[("a.jpg", "C1")], {"C1"}⟩).selectDecision = some ("C1") ∧
    (syncPass
        ⟨false, false, false, false, "15", false, none, none,
          fun _ => some ("C2"), true, true, fun l => l.headD ("")⟩
        {"b.png"} (some {"C1"})
        ⟨[("a.jpg", "C1")], {"C1"}⟩).selectDecision = some ("C2") := by
  decide

/-- C10: when fetching the device inventory fails, the pass proceeds with
two empty sets: every local file is set to upload, nothing is set to delete,
the unknown set is empty, and no batch delete request is issued. -/
theorem fetch_failure_uploads_only
    (cfg : SyncConfig) (local_images : Finset String) (st : SyncState) :
    (syncPass cfg local_images none st).toUpload = local_images ∧
    (syncPass cfg local_images none st).toDelete = ∅ ∧
    (syncPass cfg local_images none st).unknownImages = ∅ ∧
    (syncPass cfg local_images none st).deleteRequests = [] := by
  have h1 : (get_tv_images none st.mapping).1 = ∅ := rfl
  have h2 : (get_tv_images none st.mapping).2 = ∅ := rfl
  refine ⟨?_, ?_, ?_, ?_⟩
  · rw [syncPass_toUpload, h1, Finset.sdiff_empty]
  · rw [syncPass_toDelete, h1, Finset.empty_sdiff]
  · rw [syncPass_unknownImages, h2]
  · rw [syncPass_deleteRequests]
    have hD : (get_tv_images none st.mapping).1 \ local_images = ∅ := by
      rw [h1]
      exact Finset.empty_sdiff _
    rw [hD, h2, deleteTrackedStep_empty, deleteUnknownStep_empty]
    rfl

theorem sync_idempotent_witness :
    (syncPass
        ⟨false, false, false, false, "15", false, none, none,
          fun f => some f, true, true, fun l => l.headD ("")⟩
        {"a.jpg"}
        (some (syncPass
          ⟨false, false, false, false, "15", false, none, none,
            fun f => some f, true, true, fun l => l.headD ("")⟩
          {"a.jpg"} (some ∅) ⟨[], ∅⟩).inventory)
        ⟨(syncPass
            ⟨false, false, false, false, "15", false, none, none,
              fun f => some f, true, true, fun l => l.headD ("")⟩
            {"a.jpg"} (some ∅) ⟨[], ∅⟩).mapping,
          (syncPass
            ⟨false, false, false, false, "15", false, none, none,
              fun f => some f, true, true, fun l => l.headD ("")⟩
            {"a.jpg"} (some ∅) ⟨[], ∅⟩).inventory⟩).toUpload = ∅ ∧
    (syncPass
        ⟨false, false, false, false, "15", false, none, none,
          fun f => some f, true, true, fun l => l.headD ("")⟩
        {"a.jpg"}
        (some (syncPass
          ⟨false, false, false, false, "15", false, none, none,
            fun f => some f, true, true, fun l => l.headD ("")⟩
          {"a.jpg"} (some ∅) ⟨[], ∅⟩).inventory)
        ⟨(syncPass
            ⟨false, false, false, false, "15", false, none, none,
              fun f => some f, true, true, fun l => l.headD ("")⟩
            {"a.jpg"} (some ∅) ⟨[], ∅⟩).mapping,
          (syncPass
            ⟨false, false, false, false, "15", false, none, none,
              fun f => some f, true, true, fun l => l.headD ("")⟩
            {"a.jpg"} (some ∅) ⟨[], ∅⟩).inventory⟩).toDelete = ∅ :=
  sync_idempotent
    ⟨false, false, false, false, "15", false, none, none,
      fun f => some f, true, true, fun l => l.headD ("")⟩
    (fun f => f) {"a.jpg"} [] ∅ rfl rfl (fun _ => rfl) List.nodup_nil
    (fun f => Finset.not_mem_empty f) (fun _ h => List.not_mem_nil _ h)
    (fun _ _ h => h)
/-- C8: at or below the horizon the function returns the configured
minimum. -/
theorem brightness_below_horizon (e : ℝ) (min_b max_b : ℤ) (h : e ≤ 0) :
    brightness_from_elevation e min_b max_b = min_b := by
  unfold brightness_from_elevation
  rw [if_pos h]

theorem brightness_below_horizon_witness :
    brightness_from_elevation (-10) 2 10 = 2 :=
  brightness_below_horizon (-10) 2 10 (by norm_num)

/-- C6: for positive elevation up to 90 degrees and any configured pair
min_b < max_b the result lies in the half-open interval from min_b
(inclusive) to max_b (exclusive), because the relative irradiance is
strictly between 0 and 1. -/
theorem brightness_in_range (e : ℝ) (min_b max_b : ℤ)
    (h0 : 0 < e) (h90 : e ≤ 90) (hmm : min_b < max_b) :
    min_b ≤ brightness_from_elevation e min_b max_b ∧
      brightness_from_elevation e min_b max_b < max_b := by
  have heq : brightness_from_elevation e min_b max_b =
      min_b + pyInt (((max_b - min_b : ℤ) : ℝ) *
        (0.7 : ℝ) ^ ((1.0 / (Real.sin (e * (Real.pi / 180)) +
          0.50572 * (e + 6.07995) ^ (-1.6364 : ℝ))) ^ (0.678 : ℝ))) := by
    unfold brightness_from_elevation
    rw [if_neg (not_le.2 h0)]
  have hrad_pos : 0 < e * (Real.pi / 180) := by positivity
  have hrad_lt : e * (Real.pi / 180) < Real.pi := by
    have h1 : e * (Real.pi / 180) ≤ 90 * (Real.pi / 180) := by
      apply mul_le_mul_of_nonneg_right h90
      positivity
    nlinarith [Real.pi_pos]
  have hsin : 0 < Real.sin (e * (Real.pi / 180)) :=
    Real.sin_pos_of_pos_of_lt_pi hrad_pos hrad_lt
  have hbase : (0 : ℝ) < e + 6.07995 := by linarith
  have hterm : (0 : ℝ) < 0.50572 * (e + 6.07995) ^ (-1.6364 : ℝ) := by
    have := Real.rpow_pos_of_pos hbase (-1.6364 : ℝ)
    linarith
  have hden : 0 < Real.sin (e * (Real.pi / 180)) +
      0.50572 * (e + 6.07995) ^ (-1.6364 : ℝ) := by linarith
  have ham : 0 < 1.0 / (Real.sin (e * (Real.pi / 180)) +
      0.50572 * (e + 6.07995) ^ (-1.6364 : ℝ)) := by positivity
  have hx : 0 < (1.0 / (Real.sin (e * (Real.pi / 180)) +
      0.50572 * (e + 6.07995) ^ (-1.6364 : ℝ))) ^ (0.678 : ℝ) :=
    Real.rpow_pos_of_pos ham _
  have hrel_pos : 0 < (0.7 : ℝ) ^ ((1.0 / (Real.sin (e * (Real.pi / 180)) +
      0.50572 * (e + 6.07995) ^ (-1.6364 : ℝ))) ^ (0.678 : ℝ)) :=
    Real.rpow_pos_of_pos (by norm_num) _
  have hrel_lt : (0.7 : ℝ) ^ ((1.0 / (Real.sin (e * (Real.pi / 180)) +
      0.50572 * (e + 6.07995) ^ (-1.6364 : ℝ))) ^ (0.678 : ℝ)) < 1 :=
    Real.rpow_lt_one (by norm_num) (by norm_num) hx
  have hdelta : (0 : ℝ) < ((max_b - min_b : ℤ) : ℝ) := by
    have : (0 : ℤ) < max_b - min_b := by omega
    exact_mod_cast this
  have harg_pos : 0 < ((max_b - min_b : ℤ) : ℝ) *
      (0.7 : ℝ) ^ ((1.0 / (Real.sin (e * (Real.pi / 180)) +
        0.50572 * (e + 6.07995) ^ (-1.6364 : ℝ))) ^ (0.678 : ℝ)) :=
    mul_pos hdelta hrel_pos
  have harg_lt : ((max_b - min_b : ℤ) : ℝ) *
      (0.7 : ℝ) ^ ((1.0 / (Real.sin (e * (Real.pi / 180)) +
        0.50572 * (e + 6.07995) ^ (-1.6364 : ℝ))) ^ (0.678 : ℝ)) <
      ((max_b - min_b : ℤ) : ℝ) :=
    mul_lt_of_lt_one_right hdelta hrel_lt
  have hpy : pyInt (((max_b - min_b : ℤ) : ℝ) *
      (0.7 : ℝ) ^ ((1.0 / (Real.sin (e * (Real.pi / 180)) +
        0.50572 * (e + 6.07995) ^ (-1.6364 : ℝ))) ^ (0.678 : ℝ))) =
      ⌊((max_b - min_b : ℤ) : ℝ) *
      (0.7 : ℝ) ^ ((1.0 / (Real.sin (e * (Real.pi / 180)) +
        0.50572 * (e + 6.07995) ^ (-1.6364 : ℝ))) ^ (0.678 : ℝ))⌋ := by
    unfold pyInt
    rw [if_pos (le_of_lt harg_pos)]
  rw [heq, hpy]
  constructor
  · have h1 : (0 : ℤ) ≤ ⌊((max_b - min_b : ℤ) : ℝ) *
        (0.7 : ℝ) ^ ((1.0 / (Real.sin (e * (Real.pi / 180)) +
          0.50572 * (e + 6.07995) ^ (-1.6364 : ℝ))) ^ (0.678 : ℝ))⌋ :=
      Int.floor_nonneg.2 (le_of_lt harg_pos)
    omega
  · have h2 : ⌊((max_b - min_b : ℤ) : ℝ) *
        (0.7 : ℝ) ^ ((1.0 / (Real.sin (e * (Real.pi / 180)) +
          0.50572 * (e + 6.07995) ^ (-1.6364 : ℝ))) ^ (0.678 : ℝ))⌋ <
        max_b - min_b := by
      rw [Int.floor_lt]
      exact_mod_cast harg_lt
    omega

theorem brightness_in_range_witness :
    2 ≤ brightness_from_elevation 45 2 10 ∧
      brightness_from_elevation 45 2 10 < 10 :=
  brightness_in_range 45 2 10 (by norm_num) (by norm_num) (by norm_num)
/-- C9 counterexample: at an elevation of 225 degrees the air-mass
denominator is negative, so the air mass is negative and its fractional
power is not a real number: the computation has no defined result. -/
theorem brightness_checked_undefined_at_225 :
    brightness_from_elevation_checked 225 2 10 = none := by
  have hsin : Real.sin ((225 : ℝ) * (Real.pi / 180)) = -(Real.sqrt 2 / 2) := by
    have h1 : (225 : ℝ) * (Real.pi / 180) = Real.pi + Real.pi / 4 := by ring
    rw [h1, Real.sin_add, Real.sin_pi, Real.cos_pi, Real.sin_pi_div_four]
    ring
  have hsqrt : (1.4 : ℝ) ≤ Real.sqrt 2 := by
    rw [Real.le_sqrt (by norm_num) (by norm_num)]
    norm_num
  have hterm : (0.50572 : ℝ) * ((225 : ℝ) + 6.07995) ^ (-1.6364 : ℝ) ≤
      0.50572 * (1 / 231) := by
    have h1 : ((225 : ℝ) + 6.07995) ^ (-1.6364 : ℝ) ≤
        ((225 : ℝ) + 6.07995) ^ (-1 : ℝ) :=
      Real.rpow_le_rpow_of_exponent_le (by norm_num) (by norm_num)
    have h2 : ((225 : ℝ) + 6.07995) ^ (-1 : ℝ) = ((225 : ℝ) + 6.07995)⁻¹ :=
      Real.rpow_neg_one _
    have h3 : ((225 : ℝ) + 6.07995)⁻¹ ≤ 1 / 231 := by
      rw [inv_eq_one_div]
      apply div_le_div_of_nonneg_left (by norm_num) (by norm_num)
      norm_num
    nlinarith [Real.rpow_pos_of_pos (show (0:ℝ) < 225 + 6.07995 by norm_num) (-1.6364 : ℝ)]
  have hden : Real.sin ((225 : ℝ) * (Real.pi / 180)) +
      0.50572 * ((225 : ℝ) + 6.07995) ^ (-1.6364 : ℝ) < 0 := by
    rw [hsin]
    nlinarith
  unfold brightness_from_elevation_checked
  rw [if_neg (by norm_num), if_neg (by norm_num)]
  show (if Real.sin ((225 : ℝ) * (Real.pi / 180)) +
      0.50572 * ((225 : ℝ) + 6.07995) ^ (-1.6364 : ℝ) = 0 then none
    else if 1.0 / (Real.sin ((225 : ℝ) * (Real.pi / 180)) +
      0.50572 * ((225 : ℝ) + 6.07995) ^ (-1.6364 : ℝ)) < 0 then none
    else some ((2 : ℤ) + pyInt ((((10 : ℤ) - 2 : ℤ) : ℝ) *
      (0.7 : ℝ) ^ ((1.0 / (Real.sin ((225 : ℝ) * (Real.pi / 180)) +
        0.50572 * ((225 : ℝ) + 6.07995) ^ (-1.6364 : ℝ))) ^ (0.678 : ℝ))))) = none
  rw [if_neg (ne_of_lt hden), if_pos]
  have h10 : (1.0 : ℝ) = 1 := by norm_num
  rw [h10]
  exact one_div_neg.2 hden

/-- C9 amended: for every elevation of at most 180 degrees the computation
is defined: the horizon guard covers nonpositive elevations and on the rest
the sine is nonnegative, so the air-mass denominator is positive. -/
theorem brightness_checked_total_below_180 (e : ℝ) (min_b max_b : ℤ)
    (h : e ≤ 180) : (brightness_from_elevation_checked e min_b max_b).isSome := by
  unfold brightness_from_elevation_checked
  by_cases h0 : e ≤ 0
  · rw [if_pos h0]
    rfl
  · push_neg at h0
    have hbase : (0 : ℝ) < e + 6.07995 := by linarith
    rw [if_neg (not_le.2 h0), if_neg (not_le.2 hbase)]
    have hrad_pos : 0 ≤ e * (Real.pi / 180) := by positivity
    have hrad_le : e * (Real.pi / 180) ≤ Real.pi := by
      have h1 : e * (Real.pi / 180) ≤ 180 * (Real.pi / 180) := by
        apply mul_le_mul_of_nonneg_right h
        positivity
      nlinarith [Real.pi_pos]
    have hsin : 0 ≤ Real.sin (e * (Real.pi / 180)) :=
      Real.sin_nonneg_of_nonneg_of_le_pi hrad_pos hrad_le
    have hterm : (0 : ℝ) < 0.50572 * (e + 6.07995) ^ (-1.6364 : ℝ) := by
      have := Real.rpow_pos_of_pos hbase (-1.6364 : ℝ)
      linarith
    have hden : 0 < Real.sin (e * (Real.pi / 180)) +
        0.50572 * (e + 6.07995) ^ (-1.6364 : ℝ) := by linarith
    show (if Real.sin (e * (Real.pi / 180)) +
        0.50572 * (e + 6.07995) ^ (-1.6364 : ℝ) = 0 then none
      else if 1.0 / (Real.sin (e * (Real.pi / 180)) +
        0.50572 * (e + 6.07995) ^ (-1.6364 : ℝ)) < 0 then none
      else some (min_b + pyInt (((max_b - min_b : ℤ) : ℝ) *
        (0.7 : ℝ) ^ ((1.0 / (Real.sin (e * (Real.pi / 180)) +
          0.50572 * (e + 6.07995) ^ (-1.6364 : ℝ))) ^ (0.678 : ℝ))))).isSome
    rw [if_neg (ne_of_gt hden), if_neg (not_lt.2 (le_of_lt (div_pos (by norm_num) hden)))]
    rfl

theorem brightness_checked_total_witness :
    (brightness_from_elevation_checked 45 2 10).isSome :=
  brightness_checked_total_below_180 45 2 10 (by norm_num)
theorem brightness_pos_eq (e : ℝ) (min_b max_b : ℤ) (h0 : 0 < e) :
    brightness_from_elevation e min_b max_b =
      min_b + pyInt (((max_b - min_b : ℤ) : ℝ) *
        (0.7 : ℝ) ^ ((1.0 / (Real.sin (e * (Real.pi / 180)) +
          0.50572 * (e + 6.07995) ^ (-1.6364 : ℝ))) ^ (0.678 : ℝ))) := by
  unfold brightness_from_elevation
  rw [if_neg (not_le.2 h0)]

/-- A smaller air-mass denominator means more atmosphere, hence a smaller
relative irradiance. -/
theorem rel_le_rel_of_denom_le {d1 d2 : ℝ} (h1 : 0 < d1) (hle : d1 ≤ d2) :
    (0.7 : ℝ) ^ ((1.0 / d1) ^ (0.678 : ℝ)) ≤
      (0.7 : ℝ) ^ ((1.0 / d2) ^ (0.678 : ℝ)) := by
  have h2 : 0 < d2 := lt_of_lt_of_le h1 hle
  have hone : (1.0 : ℝ) = 1 := by norm_num
  have hinv : 1.0 / d2 ≤ 1.0 / d1 := by
    rw [hone]
    exact one_div_le_one_div_of_le h1 hle
  have hinv2 : 0 ≤ 1.0 / d2 := by positivity
  have hpow : (1.0 / d2) ^ (0.678 : ℝ) ≤ (1.0 / d1) ^ (0.678 : ℝ) :=
    Real.rpow_le_rpow hinv2 hinv (by norm_num)
  exact Real.rpow_le_rpow_of_exponent_ge (by norm_num) (by norm_num) hpow

/-- Brightness is monotone along any elevations whose air-mass denominators
are ordered the same way. -/
theorem brightness_mono_of_denom_le (e1 e2 : ℝ) (min_b max_b : ℤ)
    (h1 : 0 < e1) (h2 : 0 < e2) (hmm : min_b ≤ max_b)
    (hd1 : 0 < Real.sin (e1 * (Real.pi / 180)) +
      0.50572 * (e1 + 6.07995) ^ (-1.6364 : ℝ))
    (hdle : Real.sin (e1 * (Real.pi / 180)) +
        0.50572 * (e1 + 6.07995) ^ (-1.6364 : ℝ) ≤
      Real.sin (e2 * (Real.pi / 180)) +
        0.50572 * (e2 + 6.07995) ^ (-1.6364 : ℝ)) :
    brightness_from_elevation e1 min_b max_b ≤
      brightness_from_elevation e2 min_b max_b := by
  rw [brightness_pos_eq e1 _ _ h1, brightness_pos_eq e2 _ _ h2]
  have hrel := rel_le_rel_of_denom_le hd1 hdle
  have hrelpos : 0 < (0.7 : ℝ) ^ ((1.0 / (Real.sin (e1 * (Real.pi / 180)) +
      0.50572 * (e1 + 6.07995) ^ (-1.6364 : ℝ))) ^ (0.678 : ℝ)) :=
    Real.rpow_pos_of_pos (by norm_num) _
  have hdelta : (0 : ℝ) ≤ ((max_b - min_b : ℤ) : ℝ) := by
    have : (0 : ℤ) ≤ max_b - min_b := by omega
    exact_mod_cast this
  have harg := mul_le_mul_of_nonneg_left hrel hdelta
  have h1nonneg : 0 ≤ ((max_b - min_b : ℤ) : ℝ) *
      (0.7 : ℝ) ^ ((1.0 / (Real.sin (e1 * (Real.pi / 180)) +
        0.50572 * (e1 + 6.07995) ^ (-1.6364 : ℝ))) ^ (0.678 : ℝ)) :=
    mul_nonneg hdelta (le_of_lt hrelpos)
  have h2nonneg := le_trans h1nonneg harg
  unfold pyInt
  rw [if_pos h1nonneg, if_pos h2nonneg]
  have := Int.floor_le_floor harg
  omega

/-- C7 amended: the brightness is non-decreasing across the documented
spot-check elevations 10, 30, 60 and 90 degrees for every configured pair
min_b < max_b (each step has a larger air-mass denominator). -/
theorem brightness_spotcheck_monotone (min_b max_b : ℤ) (hmm : min_b < max_b) :
    brightness_from_elevation 10 min_b max_b ≤
        brightness_from_elevation 30 min_b max_b ∧
      brightness_from_elevation 30 min_b max_b ≤
        brightness_from_elevation 60 min_b max_b ∧
      brightness_from_elevation 60 min_b max_b ≤
        brightness_from_elevation 90 min_b max_b := by
  have hterm : ∀ e : ℝ, 0 < e → (0 : ℝ) <
      0.50572 * (e + 6.07995) ^ (-1.6364 : ℝ) := by
    intro e he
    have := Real.rpow_pos_of_pos (show (0:ℝ) < e + 6.07995 by linarith) (-1.6364 : ℝ)
    linarith
  have htermle : ∀ e b : ℝ, 0 < e → (e + 6.07995)⁻¹ ≤ b →
      (0.50572 : ℝ) * (e + 6.07995) ^ (-1.6364 : ℝ) ≤ 0.50572 * b := by
    intro e b he hb
    have h1 : (e + 6.07995) ^ (-1.6364 : ℝ) ≤ (e + 6.07995) ^ (-1 : ℝ) :=
      Real.rpow_le_rpow_of_exponent_le (by linarith) (by norm_num)
    rw [Real.rpow_neg_one] at h1
    nlinarith
  have hsin10 : Real.sin ((10 : ℝ) * (Real.pi / 180)) < 0.1751 := by
    have h1 : (10 : ℝ) * (Real.pi / 180) = Real.pi / 18 := by ring
    rw [h1]
    have h2 : Real.sin (Real.pi / 18) < Real.pi / 18 :=
      Real.sin_lt (by positivity)
    have h3 : Real.pi / 18 < 0.1751 := by
      have := Real.pi_lt_d2
      linarith
    linarith
  have hsin10pos : 0 < Real.sin ((10 : ℝ) * (Real.pi / 180)) := by
    have h1 : (10 : ℝ) * (Real.pi / 180) = Real.pi / 18 := by ring
    rw [h1]
    exact Real.sin_pos_of_pos_of_lt_pi (by positivity) (by linarith [Real.pi_pos])
  have hsin30 : Real.sin ((30 : ℝ) * (Real.pi / 180)) = 1 / 2 := by
    have h1 : (30 : ℝ) * (Real.pi / 180) = Real.pi / 6 := by ring
    rw [h1]
    exact Real.sin_pi_div_six
  have hsin60 : Real.sin ((60 : ℝ) * (Real.pi / 180)) = Real.sqrt 3 / 2 := by
    have h1 : (60 : ℝ) * (Real.pi / 180) = Real.pi / 3 := by ring
    rw [h1]
    exact Real.sin_pi_div_three
  have hsin90 : Real.sin ((90 : ℝ) * (Real.pi / 180)) = 1 := by
    have h1 : (90 : ℝ) * (Real.pi / 180) = Real.pi / 2 := by ring
    rw [h1]
    exact Real.sin_pi_div_two
  have hsqrt3_lo : (1.732 : ℝ) ≤ Real.sqrt 3 := by
    rw [Real.le_sqrt (by norm_num) (by norm_num)]
    norm_num
  have hsqrt3_hi : Real.sqrt 3 ≤ 1.7325 := by
    rw [Real.sqrt_le_left (by norm_num)]
    norm_num
  refine ⟨?_, ?_, ?_⟩
  · refine brightness_mono_of_denom_le 10 30 min_b max_b (by norm_num)
      (by norm_num) (le_of_lt hmm) ?_ ?_
    · have := hterm 10 (by norm_num)
      linarith
    · have h10 := htermle 10 0.0622 (by norm_num) (by norm_num)
      have h30 := hterm 30 (by norm_num)
      rw [hsin30]
      linarith
  · refine brightness_mono_of_denom_le 30 60 min_b max_b (by norm_num)
      (by norm_num) (le_of_lt hmm) ?_ ?_
    · have := hterm 30 (by norm_num)
      rw [hsin30]
      linarith
    · have h30 := htermle 30 0.02772 (by norm_num) (by norm_num)
      have h60 := hterm 60 (by norm_num)
      rw [hsin30, hsin60]
      nlinarith
  · refine brightness_mono_of_denom_le 60 90 min_b max_b (by norm_num)
      (by norm_num) (le_of_lt hmm) ?_ ?_
    · have := hterm 60 (by norm_num)
      rw [hsin60]
      nlinarith
    · have h60 := htermle 60 0.015134 (by norm_num) (by norm_num)
      have h90 := hterm 90 (by norm_num)
      rw [hsin60, hsin90]
      nlinarith

theorem brightness_spotcheck_monotone_witness :
    brightness_from_elevation 10 2 10 ≤ brightness_from_elevation 30 2 10 ∧
      brightness_from_elevation 30 2 10 ≤ brightness_from_elevation 60 2 10 ∧
      brightness_from_elevation 60 2 10 ≤ brightness_from_elevation 90 2 10 :=
  brightness_spotcheck_monotone 2 10 (by norm_num)
open Topology

/-- Just below 90 degrees the air-mass denominator is strictly larger than
at 90 degrees: its derivative at 90 is strictly negative, because the
cosine term vanishes there while the power term still decreases. -/
theorem denom_decreasing_near_90 :
    ∃ e1 : ℝ, 89 < e1 ∧ e1 < 90 ∧
      Real.sin ((90 : ℝ) * (Real.pi / 180)) +
          0.50572 * ((90 : ℝ) + 6.07995) ^ (-1.6364 : ℝ) <
        Real.sin (e1 * (Real.pi / 180)) +
          0.50572 * (e1 + 6.07995) ^ (-1.6364 : ℝ) := by
  have hd_sin : HasDerivAt (fun e : ℝ => Real.sin (e * (Real.pi / 180)))
      (Real.cos ((90 : ℝ) * (Real.pi / 180)) * (Real.pi / 180)) 90 :=
    (hasDerivAt_mul_const _).sin
  have h1 : HasDerivAt (fun e : ℝ => e + 6.07995) 1 90 :=
    (hasDerivAt_id 90).add_const _
  have h2 : HasDerivAt (fun e : ℝ => (e + 6.07995) ^ (-1.6364 : ℝ))
      (1 * (-1.6364 : ℝ) * ((90 : ℝ) + 6.07995) ^ ((-1.6364 : ℝ) - 1)) 90 :=
    h1.rpow_const (Or.inl (by norm_num))
  have hd_pow : HasDerivAt
      (fun e : ℝ => 0.50572 * (e + 6.07995) ^ (-1.6364 : ℝ))
      (0.50572 * (1 * (-1.6364 : ℝ) * ((90 : ℝ) + 6.07995) ^ ((-1.6364 : ℝ) - 1)))
      90 := h2.const_mul _
  have hD : HasDerivAt (fun e : ℝ => Real.sin (e * (Real.pi / 180)) +
      0.50572 * (e + 6.07995) ^ (-1.6364 : ℝ))
      (Real.cos ((90 : ℝ) * (Real.pi / 180)) * (Real.pi / 180) +
        0.50572 * (1 * (-1.6364 : ℝ) * ((90 : ℝ) + 6.07995) ^ ((-1.6364 : ℝ) - 1)))
      90 := hd_sin.add hd_pow
  have hcos : Real.cos ((90 : ℝ) * (Real.pi / 180)) = 0 := by
    have h3 : (90 : ℝ) * (Real.pi / 180) = Real.pi / 2 := by ring
    rw [h3, Real.cos_pi_div_two]
  have hd_neg : Real.cos ((90 : ℝ) * (Real.pi / 180)) * (Real.pi / 180) +
      0.50572 * (1 * (-1.6364 : ℝ) * ((90 : ℝ) + 6.07995) ^ ((-1.6364 : ℝ) - 1)) < 0 := by
    rw [hcos]
    have h4 : (0 : ℝ) < ((90 : ℝ) + 6.07995) ^ ((-1.6364 : ℝ) - 1) :=
      Real.rpow_pos_of_pos (by norm_num) _
    nlinarith
  have hslope := hasDerivAt_iff_tendsto_slope.1 hD
  have hev1 := hslope.eventually_lt_const hd_neg
  have hmono_le : 𝓝[<] (90 : ℝ) ≤ 𝓝[≠] (90 : ℝ) :=
    nhdsWithin_mono _ (fun x hx => ne_of_lt hx)
  have hev2 : ∀ᶠ y in 𝓝[<] (90 : ℝ),
      slope (fun e : ℝ => Real.sin (e * (Real.pi / 180)) +
        0.50572 * (e + 6.07995) ^ (-1.6364 : ℝ)) 90 y < 0 :=
    hev1.filter_mono hmono_le
  have hev3 : ∀ᶠ y in 𝓝[<] (90 : ℝ), y ∈ Set.Ioo (89 : ℝ) 90 :=
    Filter.eventually_of_mem
      (Ioo_mem_nhdsWithin_Iio (by constructor <;> norm_num)) (fun x hx => hx)
  obtain ⟨e1, hs1, he1⟩ := (hev2.and hev3).exists
  refine ⟨e1, he1.1, he1.2, ?_⟩
  rw [slope_def_field] at hs1
  have hden : e1 - 90 < 0 := by
    have := he1.2
    linarith
  by_contra hcon
  push_neg at hcon
  have h6 : 0 ≤ (Real.sin (e1 * (Real.pi / 180)) +
      0.50572 * (e1 + 6.07995) ^ (-1.6364 : ℝ) -
      (Real.sin ((90 : ℝ) * (Real.pi / 180)) +
        0.50572 * ((90 : ℝ) + 6.07995) ^ (-1.6364 : ℝ))) / (e1 - 90) :=
    div_nonneg_of_nonpos (by linarith) (le_of_lt hden)
  linarith

/-- For two positive reals in strict order some integer multiple separates
their floors. -/
theorem floor_separation {r1 r2 : ℝ} (h2 : r2 < r1) :
    ∃ K : ℕ, (0 : ℤ) < (K : ℤ) ∧ ⌊(K : ℝ) * r2⌋ < ⌊(K : ℝ) * r1⌋ := by
  have hδ : 0 < r1 - r2 := sub_pos.2 h2
  obtain ⟨K, hK⟩ := exists_nat_gt (1 / (r1 - r2))
  have hKpos : (0 : ℝ) < K := lt_trans (by positivity) hK
  refine ⟨K, by exact_mod_cast hKpos, ?_⟩
  have hKδ : 1 < (K : ℝ) * (r1 - r2) := by
    rw [div_lt_iff hδ] at hK
    linarith
  have hf1 : (K : ℝ) * r1 - 1 < (⌊(K : ℝ) * r1⌋ : ℝ) := Int.sub_one_lt_floor _
  have hf2 : (⌊(K : ℝ) * r2⌋ : ℝ) ≤ (K : ℝ) * r2 := Int.floor_le _
  have hExpand : (K : ℝ) * r1 - (K : ℝ) * r2 = (K : ℝ) * (r1 - r2) := by ring
  have hcast : (⌊(K : ℝ) * r2⌋ : ℝ) < (⌊(K : ℝ) * r1⌋ : ℝ) := by linarith
  exact_mod_cast hcast

/-- C7 counterexample: the brightness is not monotonically non-decreasing
over the whole of the interval from 0 to 90 degrees for every configured
pair min_b < max_b: just below 90 degrees the relative irradiance exceeds
its value at 90, and a large enough range makes the floors differ. -/
theorem brightness_not_monotone :
    ¬ ∀ (min_b max_b : ℤ), min_b < max_b →
        ∀ e1 e2 : ℝ, 0 < e1 → e1 ≤ e2 → e2 ≤ 90 →
          brightness_from_elevation e1 min_b max_b ≤
            brightness_from_elevation e2 min_b max_b := by
  intro hmono
  obtain ⟨e1, h89, h90, hgt⟩ := denom_decreasing_near_90
  have hterm90 : (0 : ℝ) < 0.50572 * ((90 : ℝ) + 6.07995) ^ (-1.6364 : ℝ) := by
    have := Real.rpow_pos_of_pos (show (0 : ℝ) < 90 + 6.07995 by norm_num)
      (-1.6364 : ℝ)
    linarith
  have hsin90 : Real.sin ((90 : ℝ) * (Real.pi / 180)) = 1 := by
    have h : (90 : ℝ) * (Real.pi / 180) = Real.pi / 2 := by ring
    rw [h, Real.sin_pi_div_two]
  have hD90 : 0 < Real.sin ((90 : ℝ) * (Real.pi / 180)) +
      0.50572 * ((90 : ℝ) + 6.07995) ^ (-1.6364 : ℝ) := by
    rw [hsin90]
    linarith
  have hone : (1.0 : ℝ) = 1 := by norm_num
  have hinv : 1.0 / (Real.sin (e1 * (Real.pi / 180)) +
      0.50572 * (e1 + 6.07995) ^ (-1.6364 : ℝ)) <
      1.0 / (Real.sin ((90 : ℝ) * (Real.pi / 180)) +
      0.50572 * ((90 : ℝ) + 6.07995) ^ (-1.6364 : ℝ)) := by
    rw [hone]
    exact one_div_lt_one_div_of_lt hD90 hgt
  have hpow : (1.0 / (Real.sin (e1 * (Real.pi / 180)) +
      0.50572 * (e1 + 6.07995) ^ (-1.6364 : ℝ))) ^ (0.678 : ℝ) <
      (1.0 / (Real.sin ((90 : ℝ) * (Real.pi / 180)) +
      0.50572 * ((90 : ℝ) + 6.07995) ^ (-1.6364 : ℝ))) ^ (0.678 : ℝ) := by
    refine Real.rpow_lt_rpow ?_ hinv (by norm_num)
    have hDe1 : 0 < Real.sin (e1 * (Real.pi / 180)) +
        0.50572 * (e1 + 6.07995) ^ (-1.6364 : ℝ) := lt_trans hD90 hgt
    positivity
  have hrel : (0.7 : ℝ) ^ ((1.0 / (Real.sin ((90 : ℝ) * (Real.pi / 180)) +
      0.50572 * ((90 : ℝ) + 6.07995) ^ (-1.6364 : ℝ))) ^ (0.678 : ℝ)) <
      (0.7 : ℝ) ^ ((1.0 / (Real.sin (e1 * (Real.pi / 180)) +
      0.50572 * (e1 + 6.07995) ^ (-1.6364 : ℝ))) ^ (0.678 : ℝ)) :=
    Real.rpow_lt_rpow_of_exponent_gt (by norm_num) (by norm_num) hpow
  have hrelpos90 : 0 < (0.7 : ℝ) ^ ((1.0 / (Real.sin ((90 : ℝ) * (Real.pi / 180)) +
      0.50572 * ((90 : ℝ) + 6.07995) ^ (-1.6364 : ℝ))) ^ (0.678 : ℝ)) :=
    Real.rpow_pos_of_pos (by norm_num) _
  obtain ⟨K, hKZ, hfloor⟩ := floor_separation hrel
  have hle := hmono 0 (K : ℤ) hKZ e1 90 (by linarith) (le_of_lt h90) le_rfl
  rw [brightness_pos_eq e1 0 (K : ℤ) (by linarith),
    brightness_pos_eq 90 0 (K : ℤ) (by norm_num)] at hle
  have hcast : (((K : ℤ) - 0 : ℤ) : ℝ) = (K : ℝ) := by
    push_cast
    ring
  rw [hcast] at hle
  have hrelpos1 : 0 < (0.7 : ℝ) ^ ((1.0 / (Real.sin (e1 * (Real.pi / 180)) +
      0.50572 * (e1 + 6.07995) ^ (-1.6364 : ℝ))) ^ (0.678 : ℝ)) :=
    Real.rpow_pos_of_pos (by norm_num) _
  have hKR : (0 : ℝ) ≤ (K : ℝ) := by positivity
  have harg1 : 0 ≤ (K : ℝ) * ((0.7 : ℝ) ^ ((1.0 / (Real.sin (e1 * (Real.pi / 180)) +
      0.50572 * (e1 + 6.07995) ^ (-1.6364 : ℝ))) ^ (0.678 : ℝ))) :=
    mul_nonneg hKR (le_of_lt hrelpos1)
  have harg90 : 0 ≤ (K : ℝ) * ((0.7 : ℝ) ^ ((1.0 / (Real.sin ((90 : ℝ) * (Real.pi / 180)) +
      0.50572 * ((90 : ℝ) + 6.07995) ^ (-1.6364 : ℝ))) ^ (0.678 : ℝ))) :=
    mul_nonneg hKR (le_of_lt hrelpos90)
  unfold pyInt at hle
  rw [if_pos harg1, if_pos harg90] at hle
  omega

end FrameTV
